import Mathlib

/-!
Verification of the jwtdecode claims-formatting pipeline.

The repository bundles two historical versions of `package formatter`:
`src/formatter/formatter.go` (here namespace `FG`) and the variant in
`src/unnamed/part_002` (here namespace `P2`).  `main.go` invokes the
three-argument renderers `FormatJSON(claims, convertEpoch, epochUnit)` /
`FormatCSV` / `FormatXML`, whose signatures match the `part_002` variant,
so `P2` is the renderer family actually wired to `main`.

Embedding conventions:
- A decoded claim set (Go `jwt.MapClaims`, i.e. `map[string]interface{}`)
  is modelled as an association list `List (String x JSONValue)`; the list
  order models one Go map iteration order (Go map iteration order is
  unspecified and varies between runs, which matters for determinism
  claims).  Go map assignment is modelled by `insertKV` (overwrite,
  last-write-wins).
- JSON numbers are modelled as integer-valued `float64` (`Int`), which
  covers every timestamp claim the pipeline cares about; `%v` and JSON
  rendering of such values are embedded below (`goFmtFloat`, `goJSONNum`).
- Strings are Lean `String`s; byte-wise lexicographic comparison of UTF-8
  strings coincides with code-point lexicographic order, so Go string
  comparison (and `sort.Strings`) is modelled by the code-point-wise
  comparator `strLeb` below.
-/

set_option maxHeartbeats 1000000

/-- Decoded JSON claim value: the dynamic `interface{}` values produced by
decoding the payload of a token (booleans, numbers, strings, nested objects,
arrays, null).  Numbers are integer-valued `float64`, modelled as `Int`. -/
inductive JSONValue where
  | null
  | bool (b : Bool)
  | num (n : Int)
  | str (s : String)
  | arr (items : List JSONValue)
  | obj (fields : List (String × JSONValue))

/-- A claim set: association-list model of `jwt.MapClaims`. -/
abbrev ClaimSet := List (String × JSONValue)

/-- The keys of an association list, in iteration order. -/
def keysOf (l : ClaimSet) : List String := l.map Prod.fst

/-- Go map read `m[k]` (first matching binding; bindings are unique). -/
def lookupKV : ClaimSet → String → Option JSONValue
  | [], _ => none
  | (k', v') :: t, k => if k' = k then some v' else lookupKV t k

/-- Go map assignment `m[k] = v`: overwrite the existing binding in place,
or append a fresh binding. -/
def insertKV : ClaimSet → String → JSONValue → ClaimSet
  | [], k, v => [(k, v)]
  | (k', v') :: t, k, v => if k' = k then (k, v) :: t else (k', v') :: insertKV t k v

/-- The decimal digit character for a value below ten. -/
def digitChar (d : Nat) : Char :=
  match d with
  | 0 => '0' | 1 => '1' | 2 => '2' | 3 => '3' | 4 => '4'
  | 5 => '5' | 6 => '6' | 7 => '7' | 8 => '8' | _ => '9'

/-- Fuel-indexed digit expansion (the fuel only bounds the number of digits
so that the recursion is structural and terms evaluate by reduction; the
wrapper below instantiates it with a bound that never runs out). -/
def natDigitsF : Nat → Nat → List Char
  | 0, _ => []
  | fuel + 1, n =>
    if n < 10 then [digitChar n]
    else natDigitsF fuel (n / 10) ++ [digitChar (n % 10)]

/-- Decimal digits of a natural number, most significant first. -/
def natDigits (n : Nat) : List Char := natDigitsF (n + 1) n

/-- Left-pad a decimal rendering with zeros to a minimum width. -/
def padNat (w : Nat) (n : Nat) : List Char :=
  List.replicate (w - (natDigits n).length) '0' ++ natDigits n

/-- Plain decimal rendering of an integer (Go `%d` - style). -/
def intDecimal (n : Int) : String :=
  (if n < 0 then "-" else "") ++ ⟨natDigits n.natAbs⟩

/-- Digits with trailing zeros removed: the shortest decimal digit string of
an exactly-representable integer `float64`. -/
def stripTrailingZeros (l : List Char) : List Char :=
  (l.reverse.dropWhile (· = '0')).reverse

/-- Go scientific notation `d.ddde+XX` (exponent at least two digits). -/
def sciNotation (sign : String) (digs : List Char) (exp : Nat) : String :=
  match digs with
  | [] => sign ++ "0e+" ++ ⟨padNat 2 exp⟩
  | d :: rest =>
    if rest.isEmpty then sign ++ ⟨[d]⟩ ++ "e+" ++ ⟨padNat 2 exp⟩
    else sign ++ ⟨[d]⟩ ++ "." ++ ⟨rest⟩ ++ "e+" ++ ⟨padNat 2 exp⟩

/-- Go `fmt.Sprintf("%v", f)` for an integer-valued `float64`:
`strconv.FormatFloat(f, 'g', -1, 64)`, which uses scientific notation once
the decimal exponent reaches 6 (e.g. `1.7e+09` for `1700000000`). -/
def goFmtFloat (n : Int) : String :=
  if n = 0 then "0"
  else
    let sign : String := if n < 0 then "-" else ""
    let ds := natDigits n.natAbs
    let exp := ds.length - 1
    if exp < 6 then sign ++ ⟨ds⟩
    else sciNotation sign (stripTrailingZeros ds) exp

/-- Go `encoding/json` rendering of an integer-valued `float64`: fixed
notation below `1e21`, scientific notation from `1e21` on. -/
def goJSONNum (n : Int) : String :=
  if n.natAbs < 10 ^ 21 then intDecimal n
  else
    sciNotation (if n < 0 then "-" else "")
      (stripTrailingZeros (natDigits n.natAbs)) ((natDigits n.natAbs).length - 1)

/-- Code-point-wise lexicographic `≤` on character lists: the order Go
string comparison uses (byte-wise on UTF-8, which coincides with
code-point-wise). -/
def charListLe : List Char → List Char → Bool
  | [], _ => true
  | _ :: _, [] => false
  | c1 :: t1, c2 :: t2 =>
    if c1.toNat = c2.toNat then charListLe t1 t2
    else decide (c1.toNat < c2.toNat)

/-- Code-point-wise lexicographic `<` on character lists. -/
def charListLt : List Char → List Char → Bool
  | [], [] => false
  | [], _ :: _ => true
  | _ :: _, [] => false
  | c1 :: t1, c2 :: t2 =>
    if c1.toNat = c2.toNat then charListLt t1 t2
    else decide (c1.toNat < c2.toNat)

/-- Byte-wise `≤` on strings (Go `a <= b`). -/
def strLeb (a b : String) : Bool := charListLe a.data b.data

/-- Byte-wise `<` on strings (Go `a < b`). -/
def strLtb (a b : String) : Bool := charListLt a.data b.data

/-- `sort.Strings`: ascending byte-wise sort of a string slice. -/
def sortStrings (l : List String) : List String :=
  List.insertionSort (fun a b => strLeb a b = true) l

/-- Separator-joined concatenation (model of sequential buffer writes). -/
def joinStr (sep : String) : List String → String
  | [] => ""
  | [x] => x
  | x :: y :: xs => x ++ sep ++ joinStr sep (y :: xs)

/-- One lowercase hexadecimal digit (Go `encoding/json` uses lowercase hex). -/
def hexDigit (n : Nat) : Char :=
  match n with
  | 10 => 'a' | 11 => 'b' | 12 => 'c' | 13 => 'd' | 14 => 'e' | 15 => 'f'
  | d => digitChar d

/-- Go `encoding/json` string escaping of one character, with the default
HTML escaping (`<`, `>`, `&`, U+2028, U+2029 become `\uXXXX`). -/
def jsonEscapeChar (c : Char) : List Char :=
  if c = '"' then ['\\', '"']
  else if c = '\\' then ['\\', '\\']
  else if c = '\n' then ['\\', 'n']
  else if c = '\r' then ['\\', 'r']
  else if c = '\t' then ['\\', 't']
  else if c = '<' then "\\u003c".data
  else if c = '>' then "\\u003e".data
  else if c = '&' then "\\u0026".data
  else if c.toNat < 32 then ['\\', 'u', '0', '0', hexDigit (c.toNat / 16), hexDigit (c.toNat % 16)]
  else if c.toNat = 0x2028 then "\\u2028".data
  else if c.toNat = 0x2029 then "\\u2029".data
  else [c]

/-- Go `encoding/json` escaping of a whole string (contents of a JSON string
literal, quotes not included). -/
def jsonEscape (s : String) : String := ⟨s.data.flatMap jsonEscapeChar⟩

mutual

/-- Compact `json.Marshal` of a claim value.  Go sorts the keys of a
`map[string]interface{}` before encoding; we render the fields and sort the
rendered pairs by key with a stable sort, which is equivalent.  (The two
partner functions walk the element and field lists; the recursion is mutual
so that it is structural and terms evaluate by reduction.) -/
def jsonCompact : JSONValue → String
  | .null => "null"
  | .bool b => if b then "true" else "false"
  | .num n => goJSONNum n
  | .str s => "\"" ++ jsonEscape s ++ "\""
  | .arr items => "[" ++ joinStr "," (jsonCompactList items) ++ "]"
  | .obj fields =>
    let sorted := List.insertionSort (fun a b => strLeb a.1 b.1 = true) (jsonCompactFields fields)
    "\x7b" ++ joinStr "," (sorted.map (fun kv => "\"" ++ jsonEscape kv.1 ++ "\":" ++ kv.2)) ++ "\x7d"

/-- `jsonCompact` of each array element. -/
def jsonCompactList : List JSONValue → List String
  | [] => []
  | v :: t => jsonCompact v :: jsonCompactList t

/-- `jsonCompact` of each field value, keeping the key. -/
def jsonCompactFields : List (String × JSONValue) → List (String × String)
  | [] => []
  | (k, v) :: t => (k, jsonCompact v) :: jsonCompactFields t

end

/-- Two-space indentation at a given depth (`json.MarshalIndent(v, "", "  ")`). -/
def indentStr (d : Nat) : String := ⟨List.replicate (2 * d) ' '⟩

mutual

/-- `json.MarshalIndent(v, "", "  ")` rendering of a claim value at depth
`d`: objects and arrays put each element on its own line, keys are followed
by `": "`, map keys are sorted.  (Mutual with its list walkers so the
recursion is structural.) -/
def jsonIndentVal : Nat → JSONValue → String
  | _, .null => "null"
  | _, .bool b => if b then "true" else "false"
  | _, .num n => goJSONNum n
  | _, .str s => "\"" ++ jsonEscape s ++ "\""
  | _, .arr [] => "[]"
  | d, .arr items =>
    "[\n" ++ joinStr ",\n" ((jsonIndentList (d + 1) items).map (fun s => indentStr (d + 1) ++ s)) ++
      "\n" ++ indentStr d ++ "]"
  | _, .obj [] => "{}"
  | d, .obj fields =>
    let sorted := List.insertionSort (fun a b => strLeb a.1 b.1 = true) (jsonIndentFields (d + 1) fields)
    "\x7b\n" ++ joinStr ",\n" (sorted.map (fun kv => indentStr (d + 1) ++ "\"" ++ jsonEscape kv.1 ++ "\": " ++ kv.2)) ++
      "\n" ++ indentStr d ++ "\x7d"

/-- `jsonIndentVal` of each array element. -/
def jsonIndentList : Nat → List JSONValue → List String
  | _, [] => []
  | d, v :: t => jsonIndentVal d v :: jsonIndentList d t

/-- `jsonIndentVal` of each field value, keeping the key. -/
def jsonIndentFields : Nat → List (String × JSONValue) → List (String × String)
  | _, [] => []
  | d, (k, v) :: t => (k, jsonIndentVal d v) :: jsonIndentFields d t

end

mutual

/-- Go `fmt.Sprintf("%v", value)` on a decoded claim value: strings are
verbatim, booleans are `true`/`false`, `nil` is `<nil>`, floats use the
shortest `%g` form, slices are space-separated in brackets, maps are
`map[k:v ...]` with keys sorted.  (Mutual with its list walkers so the
recursion is structural.) -/
def goFmtV : JSONValue → String
  | .null => "<nil>"
  | .bool b => if b then "true" else "false"
  | .num n => goFmtFloat n
  | .str s => s
  | .arr items => "[" ++ joinStr " " (goFmtVList items) ++ "]"
  | .obj fields =>
    let sorted := List.insertionSort (fun a b => strLeb a.1 b.1 = true) (goFmtVFields fields)
    "map[" ++ joinStr " " (sorted.map (fun kv => kv.1 ++ ":" ++ kv.2)) ++ "]"

/-- `goFmtV` of each slice element. -/
def goFmtVList : List JSONValue → List String
  | [] => []
  | v :: t => goFmtV v :: goFmtVList t

/-- `goFmtV` of each map value, keeping the key. -/
def goFmtVFields : List (String × JSONValue) → List (String × String)
  | [] => []
  | (k, v) :: t => (k, goFmtV v) :: goFmtVFields t

end

/-- Proleptic-Gregorian date of a day count relative to 1970-01-01
(the `civil_from_days` algorithm used by `time.Time` date computation):
returns `(year, month, day)`. -/
def civilFromDays (z0 : Int) : Int × Int × Int :=
  let z := z0 + 719468
  let era := z.fdiv 146097
  let doe := z - era * 146097
  let yoe := (doe - doe.fdiv 1460 + doe.fdiv 36524 - doe.fdiv 146096).fdiv 365
  let y := yoe + era * 400
  let doy := doe - (365 * yoe + yoe.fdiv 4 - yoe.fdiv 100)
  let mp := (5 * doy + 2).fdiv 153
  let d := doy - (153 * mp + 2).fdiv 5 + 1
  let m := mp + (if mp < 10 then 3 else -9)
  (if m ≤ 2 then y + 1 else y, m, d)

/-- Two-digit zero-padded field of the `"2006-01-02 15:04:05"` layout. -/
def pad2 (n : Nat) : String := ⟨padNat 2 n⟩

/-- Year field of the `"2006"` layout: four digits, zero padded, sign first. -/
def padYear (y : Int) : String :=
  (if y < 0 then "-" else "") ++ ⟨padNat 4 y.natAbs⟩

/-- `tm.UTC().Format("2006-01-02 15:04:05 UTC")` for the instant `nanos`
nanoseconds after the Unix epoch (floor truncation to whole seconds, always
rendered at the UTC offset). -/
def formatDatestamp (nanos : Int) : String :=
  let sec := nanos.fdiv 1000000000
  let days := sec.fdiv 86400
  let sod := (sec - days * 86400).toNat
  let c := civilFromDays days
  padYear c.1 ++ "-" ++ pad2 c.2.1.toNat ++ "-" ++ pad2 c.2.2.toNat ++ " " ++
    pad2 (sod / 3600) ++ ":" ++ pad2 (sod % 3600 / 60) ++ ":" ++ pad2 (sod % 60) ++ " UTC"

/-- `strings.ToLower` as used on the epoch-unit token (ASCII simple case
mapping; every recognized unit token is ASCII). -/
def goToLower (s : String) : String := ⟨s.data.map Char.toLower⟩

/-- Shared constant of both formatter files: the four claim names treated as
epoch timestamps (`iat`, `exp`, `nbf`, `auth_time`). -/
def isEpochKey (key : String) : Bool :=
  key = "iat" || key = "exp" || key = "nbf" || key = "auth_time"

namespace P2

/-- Instant selected by `convertEpochToHumanReadable` in
`src/unnamed/part_002` (the formatter wired to `main`), as nanoseconds since
the epoch: `time.Unix(ts, 0)` for seconds, `time.Unix(0, ts*unit)` for the
sub-second units, and for an empty or unrecognized unit the heuristic
`if timestamp > 1e10 { milliseconds } else { seconds }`. -/
def convertEpochNanos (timestamp : Int) (epochUnit : String) : Int :=
  match goToLower epochUnit with
  | "s" | "seconds" => timestamp * 1000000000
  | "ms" | "milliseconds" => timestamp * 1000000
  | "us" | "microseconds" => timestamp * 1000
  | "ns" | "nanoseconds" => timestamp
  | _ => if timestamp > 10000000000 then timestamp * 1000000 else timestamp * 1000000000

/-- `convertEpochToHumanReadable` of `src/unnamed/part_002`: for one of the
four epoch claim keys and a numeric value, the formatted UTC datestamp;
otherwise `none` (the Go `("", false)` return). -/
def convertEpochToHumanReadable (key : String) (value : JSONValue) (epochUnit : String) : Option String :=
  if isEpochKey key then
    match value with
    | .num n => some (formatDatestamp (convertEpochNanos n epochUnit))
    | _ => none
  else none

/-- Body of the `extendedClaims` loop of `FormatJSON` in
`src/unnamed/part_002`: copy the entry, then add the `_datestamp` companion
when conversion is enabled and applicable. -/
def extendStep (convertEpoch : Bool) (epochUnit : String) (acc : ClaimSet)
    (kv : String × JSONValue) : ClaimSet :=
  let acc := insertKV acc kv.1 kv.2
  if convertEpoch then
    match convertEpochToHumanReadable kv.1 kv.2 epochUnit with
    | some d => insertKV acc (kv.1 ++ "_datestamp") (.str d)
    | none => acc
  else acc

/-- `FormatJSON` of `src/unnamed/part_002`: copy every claim into a fresh
`extendedClaims` map, adding a `<key>_datestamp` companion when conversion
is enabled and applicable, then `json.MarshalIndent(extendedClaims, "", "  ")`. -/
def FormatJSON (claims : ClaimSet) (convertEpoch : Bool) (epochUnit : String) : String :=
  let extendedClaims := claims.foldl (extendStep convertEpoch epochUnit) []
  jsonIndentVal 0 (JSONValue.obj extendedClaims)

/-- Loop body of `flattenClaims` in `src/unnamed/part_002`: JSON-stringify a
nested map or array, pass a scalar through, and (when enabled) add a
`<newKey>_datestamp` companion computed from the original value. -/
def flattenStep (pre : String) (convertEpoch : Bool) (epochUnit : String) (acc : ClaimSet)
    (kv : String × JSONValue) : ClaimSet :=
  let newKey := if pre = "" then kv.1 else pre ++ "." ++ kv.1
  let acc :=
    match kv.2 with
    | .obj fs => insertKV acc newKey (.str (jsonCompact (.obj fs)))
    | .arr items => insertKV acc newKey (.str (jsonCompact (.arr items)))
    | v => insertKV acc newKey v
  if convertEpoch then
    match convertEpochToHumanReadable kv.1 kv.2 epochUnit with
    | some d => insertKV acc (newKey ++ "_datestamp") (.str d)
    | none => acc
  else acc

/-- `flattenClaims` of `src/unnamed/part_002`: the fold of `flattenStep` over
the claims in map iteration order, starting from a fresh map.  The `pre`
parameter is the Go `prefix` argument (always `""` at the call site; the
function never recurses despite its doc comment). -/
def flattenClaims (claims : ClaimSet) (pre : String) (convertEpoch : Bool) (epochUnit : String) : ClaimSet :=
  claims.foldl (flattenStep pre convertEpoch epochUnit) []

end P2

/-- `escapeCSVValue` (identical in both formatter files): prepend a single
quote when the first byte is `=`, `+`, `-` or `@` (CSV-injection guard). -/
def escapeCSVValue (value : String) : String :=
  match value.data with
  | [] => value
  | c :: _ => if c = '=' || c = '+' || c = '-' || c = '@' then "'" ++ value else value

/-- `unicode.IsSpace` (Go White_Space property), used by the CSV writer on
the first rune of a field. -/
def goIsSpace (c : Char) : Bool :=
  c = '\t' || c = '\n' || c.toNat = 11 || c.toNat = 12 || c = '\r' || c = ' ' ||
  c.toNat = 0x85 || c.toNat = 0xA0 || c.toNat = 0x1680 ||
  (0x2000 ≤ c.toNat && c.toNat ≤ 0x200A) ||
  c.toNat = 0x2028 || c.toNat = 0x2029 || c.toNat = 0x202F || c.toNat = 0x205F ||
  c.toNat = 0x3000

/-- `encoding/csv` `fieldNeedsQuotes` with the default comma delimiter:
empty fields are unquoted; the literal `\.` is quoted; fields containing a
quote, comma, CR or LF are quoted; fields starting with white space are
quoted. -/
def fieldNeedsQuotes (field : String) : Bool :=
  if field = "" then false
  else if field = "\\." then true
  else if field.data.any (fun c => c = '\n' || c = '\r' || c = '"' || c = ',') then true
  else
    match field.data with
    | [] => false
    | c :: _ => goIsSpace c

/-- Body of a quoted CSV field with the default `UseCRLF = false`: quotes are
doubled, CR and LF are copied through. -/
def csvQuoteBody (field : String) : String :=
  ⟨field.data.flatMap (fun c => if c = '"' then ['"', '"'] else [c])⟩

/-- One encoded CSV field as written by `encoding/csv`. -/
def encodeCSVField (field : String) : String :=
  if fieldNeedsQuotes field then "\"" ++ csvQuoteBody field ++ "\"" else field

/-- One record written by `csv.Writer.Write` (comma separated, LF terminated). -/
def csvWriteRecord (fields : List String) : String :=
  joinStr "," (fields.map encodeCSVField) ++ "\n"

namespace P2

/-- The sorted header slice of `FormatCSV` in `src/unnamed/part_002`
(`sort.Strings(headers)` over the keys of the flattened map). -/
def csvHeaders (claims : ClaimSet) (convertEpoch : Bool) (epochUnit : String) : List String :=
  sortStrings (keysOf (flattenClaims claims "" convertEpoch epochUnit))

/-- The data-row slice of `FormatCSV`: for each sorted header, the cell
`escapeCSVValue(fmt.Sprintf("%v", flattened[header]))` before CSV encoding. -/
def csvRow (claims : ClaimSet) (convertEpoch : Bool) (epochUnit : String) : List String :=
  (csvHeaders claims convertEpoch epochUnit).map (fun h =>
    escapeCSVValue (goFmtV ((lookupKV (flattenClaims claims "" convertEpoch epochUnit) h).getD .null)))

/-- `FormatCSV` of `src/unnamed/part_002`: flatten, sort the headers, write
the header record then the single data record. -/
def FormatCSV (claims : ClaimSet) (convertEpoch : Bool) (epochUnit : String) : String :=
  csvWriteRecord (csvHeaders claims convertEpoch epochUnit) ++
    csvWriteRecord (csvRow claims convertEpoch epochUnit)

end P2

/-- `XMLNode` of `src/unnamed/part_002`.  The `attrs` field models the Go
field `Attrs []xml.Attr` which carries the struct tag `xml:"-"`: the Go XML
encoder therefore ignores it entirely when marshaling (see `xmlRenderNode`,
which takes only the name, chardata content and child nodes into account). -/
inductive XMLNode where
  | mk (name : String) (attrs : List (String × String)) (content : String) (nodes : List XMLNode)

/-- Name of an XML node. -/
def XMLNode.name : XMLNode → String
  | .mk n _ _ _ => n

/-- Chardata content of an XML node. -/
def XMLNode.content : XMLNode → String
  | .mk _ _ c _ => c

/-- Child elements of an XML node. -/
def XMLNode.nodes : XMLNode → List XMLNode
  | .mk _ _ _ ns => ns

/-- `xml.EscapeText` on one character (chardata escaping). -/
def xmlEscapeChar (c : Char) : List Char :=
  if c = '"' then "&#34;".data
  else if c.toNat = 39 then "&#39;".data
  else if c = '&' then "&amp;".data
  else if c = '<' then "&lt;".data
  else if c = '>' then "&gt;".data
  else if c = '\t' then "&#x9;".data
  else if c = '\n' then "&#xA;".data
  else if c = '\r' then "&#xD;".data
  else [c]

/-- `xml.EscapeText` on a whole chardata string. -/
def xmlEscape (s : String) : String := ⟨s.data.flatMap xmlEscapeChar⟩

/-- Indentation of `xml.MarshalIndent(v, "", "  ")` at a given depth. -/
def xmlIndent (d : Nat) : String := ⟨List.replicate (2 * d) ' '⟩

mutual

/-- `xml.MarshalIndent(node, "", "  ")` rendering of one element: a newline
and indentation before every start tag except the first token, chardata
written immediately after the start tag, and the end tag on the same line
exactly when the element has no child elements.  The `attrs` field is not
rendered (struct tag `xml:"-"`). -/
def xmlRenderNode : Bool → Nat → XMLNode → String
  | first, d, .mk name _attrs content nodes =>
    (if first then "" else "\n") ++ xmlIndent d ++ "<" ++ name ++ ">" ++ xmlEscape content ++
    xmlRenderNodes (d + 1) nodes ++
    (if nodes.isEmpty then "" else "\n" ++ xmlIndent d) ++ "</" ++ name ++ ">"

/-- Sequential rendering of the child elements (each with a preceding
newline and indentation, i.e. `first = false`). -/
def xmlRenderNodes : Nat → List XMLNode → String
  | _, [] => ""
  | d, n :: t => xmlRenderNode false d n ++ xmlRenderNodes d t

end

namespace P2

mutual

/-- `mapClaimsToXMLNode` of `src/unnamed/part_002`: iterate the claims in map
iteration order (the list order of the model); when conversion is enabled and
applies, emit a node holding the original value as content and the datestamp
in `attrs` (which the encoder drops) and skip the default handling; otherwise
the default handling of `claimValueXMLNode` applies. -/
def mapClaimsToXMLNode : ClaimSet → Bool → String → List XMLNode
  | [], _, _ => []
  | (key, value) :: rest, convertEpoch, epochUnit =>
    (if convertEpoch ∧ (convertEpochToHumanReadable key value epochUnit).isSome then
      XMLNode.mk key [("datestamp", (convertEpochToHumanReadable key value epochUnit).getD "")]
        (goFmtV value) []
    else claimValueXMLNode key value convertEpoch epochUnit) ::
      mapClaimsToXMLNode rest convertEpoch epochUnit

/-- The `switch v := value.(type)` default handling of one claim: a nested
map becomes a child tree (the Go code re-enters `mapClaimsToXMLNode`, which
is the mutual call here), an array becomes `item` children rendered with
`%v`, and a scalar becomes a content node. -/
def claimValueXMLNode : String → JSONValue → Bool → String → XMLNode
  | key, .obj fs, convertEpoch, epochUnit =>
    XMLNode.mk key [] "" (mapClaimsToXMLNode fs convertEpoch epochUnit)
  | key, .arr items, _, _ =>
    XMLNode.mk key [] "" (items.map (fun item => XMLNode.mk "item" [] (goFmtV item) []))
  | key, v, _, _ => XMLNode.mk key [] (goFmtV v) []

end

/-- `FormatXML` of `src/unnamed/part_002`: the `xml.Header` declaration
followed by `xml.MarshalIndent` of the `JWTClaims` root element. -/
def FormatXML (claims : ClaimSet) (convertEpoch : Bool) (epochUnit : String) : String :=
  "<?xml version=\"1.0\" encoding=\"UTF-8\"?>\n" ++
    xmlRenderNode true 0 (XMLNode.mk "JWTClaims" [] "" (mapClaimsToXMLNode claims convertEpoch epochUnit))

end P2

namespace FG

/-- Instant selected by `convertEpochToHumanReadable` in
`src/formatter/formatter.go`, as nanoseconds since the epoch.  Identical to
the `part_002` version except for the heuristic threshold:
`if timestamp > 1e11 { milliseconds } else { seconds }`. -/
def convertEpochNanos (timestamp : Int) (epochUnit : String) : Int :=
  match goToLower epochUnit with
  | "s" | "seconds" => timestamp * 1000000000
  | "ms" | "milliseconds" => timestamp * 1000000
  | "us" | "microseconds" => timestamp * 1000
  | "ns" | "nanoseconds" => timestamp
  | _ => if timestamp > 100000000000 then timestamp * 1000000 else timestamp * 1000000000

/-- `convertEpochToHumanReadable` of `src/formatter/formatter.go`: `none`
models the Go `("", false)` return; the component never fails otherwise. -/
def convertEpochToHumanReadable (key : String) (value : JSONValue) (epochUnit : String) : Option String :=
  if isEpochKey key then
    match value with
    | .num n => some (formatDatestamp (convertEpochNanos n epochUnit))
    | _ => none
  else none

/-- Loop body of `PreprocessClaims` in `src/formatter/formatter.go`: copy the
entry into the fresh `processedClaims` map and add a `<key>_datestamp`
companion whenever the normalizer applies. -/
def preprocessStep (epochUnit : String) (acc : ClaimSet) (kv : String × JSONValue) : ClaimSet :=
  let acc := insertKV acc kv.1 kv.2
  match convertEpochToHumanReadable kv.1 kv.2 epochUnit with
  | some d => insertKV acc (kv.1 ++ "_datestamp") (.str d)
  | none => acc

/-- `PreprocessClaims` of `src/formatter/formatter.go`: with conversion
disabled the claims are returned unchanged; otherwise every entry is copied
into a fresh map (the fold of `preprocessStep`) and a `<key>_datestamp`
companion is added whenever the normalizer applies. -/
def PreprocessClaims (claims : ClaimSet) (convertEpoch : Bool) (epochUnit : String) : ClaimSet :=
  if !convertEpoch then claims
  else claims.foldl (preprocessStep epochUnit) []

end FG

/-!
Heap model for the frame claim: Go maps are references into a store.  A
`Store` is a heap of maps addressed by allocation index; `heapAlloc` models
`make(jwt.MapClaims)`, `heapSet` models `m[k] = v` through a reference, and
`heapGet` models reading the map a reference denotes.  The statement-level
translations below perform exactly the writes the Go code performs, each
through the reference it targets.
-/

/-- A heap of claim maps addressed by allocation index. -/
abbrev Store := List ClaimSet

/-- `make(jwt.MapClaims)`: extend the store with a fresh empty map and
return its reference. -/
def heapAlloc (st : Store) : Store × Nat := (st ++ [[]], st.length)

/-- The map a reference denotes. -/
def heapGet (st : Store) (r : Nat) : ClaimSet := st.getD r []

/-- `m[k] = v` through reference `r`. -/
def heapSet (st : Store) (r : Nat) (k : String) (v : JSONValue) : Store :=
  st.set r (insertKV (heapGet st r) k v)

namespace FG

/-- Loop body of the heap-level `PreprocessClaims`: write the entry and its
optional `_datestamp` companion through the reference `pRef` of the fresh
`processedClaims` map. -/
def preprocessStepH (pRef : Nat) (epochUnit : String) (st : Store)
    (kv : String × JSONValue) : Store :=
  let st := heapSet st pRef kv.1 kv.2
  match convertEpochToHumanReadable kv.1 kv.2 epochUnit with
  | some d => heapSet st pRef (kv.1 ++ "_datestamp") (.str d)
  | none => st

/-- Heap-level translation of `PreprocessClaims`: allocate `processedClaims`,
then for every entry of the map `claimsRef` denotes, write the entry and its
optional `_datestamp` companion into the fresh map; return its reference.
With conversion disabled the input reference itself is returned. -/
def PreprocessClaimsH (st : Store) (claimsRef : Nat) (convertEpoch : Bool) (epochUnit : String) :
    Store × Nat :=
  if !convertEpoch then (st, claimsRef)
  else
    let a := heapAlloc st
    ((heapGet a.1 claimsRef).foldl (preprocessStepH a.2 epochUnit) a.1, a.2)

end FG

namespace P2

/-- Loop body of the heap-level `extendedClaims` loop of `FormatJSON` in
`src/unnamed/part_002`. -/
def extendStepH (pRef : Nat) (convertEpoch : Bool) (epochUnit : String) (st : Store)
    (kv : String × JSONValue) : Store :=
  let st := heapSet st pRef kv.1 kv.2
  if convertEpoch then
    match convertEpochToHumanReadable kv.1 kv.2 epochUnit with
    | some d => heapSet st pRef (kv.1 ++ "_datestamp") (.str d)
    | none => st
  else st

/-- Heap-level translation of the `extendedClaims` loop of `FormatJSON` in
`src/unnamed/part_002`: allocate `extendedClaims`, copy every entry of the
input map into it (plus optional companions), marshal the fresh map. -/
def FormatJSONH (st : Store) (claimsRef : Nat) (convertEpoch : Bool) (epochUnit : String) :
    Store × String :=
  let a := heapAlloc st
  let st1 := (heapGet a.1 claimsRef).foldl (extendStepH a.2 convertEpoch epochUnit) a.1
  (st1, jsonIndentVal 0 (JSONValue.obj (heapGet st1 a.2)))

/-- Loop body of the heap-level `flattenClaims` loop of
`src/unnamed/part_002`. -/
def flattenStepH (pRef : Nat) (convertEpoch : Bool) (epochUnit : String) (st : Store)
    (kv : String × JSONValue) : Store :=
  let st :=
    match kv.2 with
    | .obj fs => heapSet st pRef kv.1 (.str (jsonCompact (.obj fs)))
    | .arr items => heapSet st pRef kv.1 (.str (jsonCompact (.arr items)))
    | v => heapSet st pRef kv.1 v
  if convertEpoch then
    match convertEpochToHumanReadable kv.1 kv.2 epochUnit with
    | some d => heapSet st pRef (kv.1 ++ "_datestamp") (.str d)
    | none => st
  else st

/-- Heap-level translation of the `flattenClaims` loop of
`src/unnamed/part_002` (the only map writes `FormatCSV` performs): allocate
`flattened` and fill it from the input map. -/
def flattenClaimsH (st : Store) (claimsRef : Nat) (convertEpoch : Bool) (epochUnit : String) :
    Store × Nat :=
  let a := heapAlloc st
  ((heapGet a.1 claimsRef).foldl (flattenStepH a.2 convertEpoch epochUnit) a.1, a.2)

end P2

/-- The renderer `main` selects for a validated output format
(`main.go`, the `switch appConfig.OutputFormat` statement). -/
def renderOutput (claims : ClaimSet) (format : String) (convertEpoch : Bool) (epochUnit : String) :
    Option String :=
  match format with
  | "JSON" => some (P2.FormatJSON claims convertEpoch epochUnit)
  | "CSV" => some (P2.FormatCSV claims convertEpoch epochUnit)
  | "XML" => some (P2.FormatXML claims convertEpoch epochUnit)
  | _ => none

/-- The size-limit error message of `main.go`. -/
def sizeLimitMsg (maxOutputSize : Nat) : String :=
  s!"Error: Formatted output size exceeds {maxOutputSize}MB limit."

/-- Tail of `main` (`main.go` lines 308-332): render, then enforce the
output-size ceiling (`len(outputData) > maxOutputSize*1024*1024`, bytes),
and only then hand the bytes to the write sink.  The result is the fatal
error message (if any) together with the list of writes performed on the
sink; on the size-limit path the write list is empty. -/
def runMainOutput (claims : ClaimSet) (format : String) (convertEpoch : Bool) (epochUnit : String)
    (maxOutputSize : Nat) : Option String × List String :=
  match renderOutput claims format convertEpoch epochUnit with
  | none => (some "Error: Unknown output format.", [])
  | some outputData =>
    if outputData.utf8ByteSize > maxOutputSize * 1024 * 1024 then
      (some (sizeLimitMsg maxOutputSize), [])
    else (none, [outputData])

/-- Bool test that `pat` occurs as a contiguous substring of `text`. -/
def containsSeg (pat : List Char) : List Char → Bool
  | [] => pat.isEmpty
  | c :: t => pat.isPrefixOf (c :: t) || containsSeg pat t

/-- String-level wrapper of `containsSeg`. -/
def containsStr (pat text : String) : Bool := containsSeg pat.data text.data

/-- Number of line-feed characters in a string (the physical-line count of a
rendered output is one more than this when the output is nonempty). -/
def countNL (s : String) : Nat := s.data.count '\n'

/-- Whether a top-level claim value reaches the CSV cell with no line feed:
a string value is emitted verbatim by `fmt %v`, so it must itself be free of
line feeds; every other value is rendered through line-feed-free encoders. -/
def valNLFree : JSONValue → Bool
  | .str s => s.data.count '\n' == 0
  | _ => true


/-! Association-list (Go map) lemmas. -/

theorem mem_keysOf_insertKV {l : ClaimSet} {k a : String} {v : JSONValue} :
    a ∈ keysOf (insertKV l k v) ↔ a = k ∨ a ∈ keysOf l := by
  induction l with
  | nil => simp [insertKV, keysOf]
  | cons kv t ih =>
    obtain ⟨k', v'⟩ := kv
    by_cases h : k' = k
    · subst h
      rw [insertKV, if_pos rfl]
      simp only [keysOf, List.map_cons, List.mem_cons]
      tauto
    · simp only [insertKV, if_neg h, keysOf, List.map_cons, List.mem_cons]
      simp only [keysOf] at ih
      rw [ih]
      tauto

theorem insertKV_of_not_mem {l : ClaimSet} {k : String} {v : JSONValue}
    (h : k ∉ keysOf l) : insertKV l k v = l ++ [(k, v)] := by
  induction l with
  | nil => rfl
  | cons kv t ih =>
    obtain ⟨k', v'⟩ := kv
    simp only [keysOf, List.map_cons, List.mem_cons, not_or] at h
    have hne : ¬(k' = k) := fun he => h.1 he.symm
    rw [insertKV, if_neg hne, List.cons_append]
    exact congrArg _ (ih h.2)

theorem lookupKV_insertKV_self {l : ClaimSet} {k : String} {v : JSONValue} :
    lookupKV (insertKV l k v) k = some v := by
  induction l with
  | nil => simp [insertKV, lookupKV]
  | cons kv t ih =>
    obtain ⟨k', v'⟩ := kv
    by_cases h : k' = k
    · subst h
      simp [insertKV, lookupKV]
    · rw [insertKV, if_neg h, lookupKV, if_neg h]
      exact ih

theorem lookupKV_insertKV_ne {l : ClaimSet} {k k' : String} {v : JSONValue}
    (h : k' ≠ k) : lookupKV (insertKV l k' v) k = lookupKV l k := by
  induction l with
  | nil => simp [insertKV, lookupKV, if_neg h]
  | cons kv t ih =>
    obtain ⟨k'', v''⟩ := kv
    by_cases h2 : k'' = k'
    · subst h2
      rw [insertKV, if_pos rfl, lookupKV, lookupKV, if_neg h, if_neg h]
    · rw [insertKV, if_neg h2, lookupKV, lookupKV]
      by_cases h3 : k'' = k
      · rw [if_pos h3, if_pos h3]
      · rw [if_neg h3, if_neg h3]
        exact ih

theorem nodup_keysOf_insertKV {l : ClaimSet} {k : String} {v : JSONValue}
    (h : (keysOf l).Nodup) : (keysOf (insertKV l k v)).Nodup := by
  induction l with
  | nil => simp [insertKV, keysOf]
  | cons kv t ih =>
    obtain ⟨k', v'⟩ := kv
    simp only [keysOf, List.map_cons, List.nodup_cons] at h
    by_cases h2 : k' = k
    · subst h2
      rw [insertKV, if_pos rfl]
      simp only [keysOf, List.map_cons, List.nodup_cons]
      exact h
    · rw [insertKV, if_neg h2]
      simp only [keysOf, List.map_cons, List.nodup_cons]
      refine ⟨fun hc => ?_, ih h.2⟩
      rcases mem_keysOf_insertKV.1 hc with h3 | h3
      · exact h2 h3
      · exact h.1 h3

theorem mem_of_mem_insertKV {l : ClaimSet} {k : String} {v : JSONValue}
    {p : String × JSONValue} (h : p ∈ insertKV l k v) : p = (k, v) ∨ p ∈ l := by
  induction l with
  | nil => simpa [insertKV] using h
  | cons kv t ih =>
    obtain ⟨k', v'⟩ := kv
    by_cases h2 : k' = k
    · subst h2
      rw [insertKV, if_pos rfl] at h
      rcases List.mem_cons.1 h with h3 | h3
      · exact Or.inl h3
      · exact Or.inr (List.mem_cons_of_mem _ h3)
    · rw [insertKV, if_neg h2] at h
      rcases List.mem_cons.1 h with h3 | h3
      · exact Or.inr (h3 ▸ List.mem_cons_self _ _)
      · rcases ih h3 with h4 | h4
        · exact Or.inl h4
        · exact Or.inr (List.mem_cons_of_mem _ h4)

theorem lookupKV_eq_some_of_mem {l : ClaimSet} {k : String} {v : JSONValue}
    (hnd : (keysOf l).Nodup) (h : (k, v) ∈ l) : lookupKV l k = some v := by
  induction l with
  | nil => simp at h
  | cons kv t ih =>
    obtain ⟨k', v'⟩ := kv
    simp only [keysOf, List.map_cons, List.nodup_cons] at hnd
    rcases List.mem_cons.1 h with h2 | h2
    · injection h2 with he1 he2
      subst he1
      subst he2
      rw [lookupKV, if_pos rfl]
    · by_cases hk : k' = k
      · subst hk
        exact absurd (List.mem_map.2 ⟨(k', v), h2, rfl⟩) hnd.1
      · rw [lookupKV, if_neg hk]
        exact ih hnd.2 h2

theorem mem_of_lookupKV_eq_some {l : ClaimSet} {k : String} {v : JSONValue}
    (h : lookupKV l k = some v) : (k, v) ∈ l := by
  induction l with
  | nil => simp [lookupKV] at h
  | cons kv t ih =>
    obtain ⟨k', v'⟩ := kv
    by_cases h2 : k' = k
    · subst h2
      rw [lookupKV, if_pos rfl] at h
      injection h with he
      subst he
      exact List.mem_cons_self _ _
    · rw [lookupKV, if_neg h2] at h
      exact List.mem_cons_of_mem _ (ih h)

theorem mem_keysOf_of_lookupKV {l : ClaimSet} {k : String} {v : JSONValue}
    (h : lookupKV l k = some v) : k ∈ keysOf l :=
  List.mem_map.2 ⟨(k, v), mem_of_lookupKV_eq_some h, rfl⟩

theorem lookupKV_isSome_of_mem_keysOf {l : ClaimSet} {k : String}
    (h : k ∈ keysOf l) : ∃ v, lookupKV l k = some v := by
  induction l with
  | nil => simp [keysOf] at h
  | cons kv t ih =>
    obtain ⟨k', v'⟩ := kv
    by_cases h2 : k' = k
    · exact ⟨v', by rw [lookupKV, if_pos h2]⟩
    · have h3 : k ∈ keysOf t := by
        simp only [keysOf, List.map_cons, List.mem_cons] at h
        rcases h with h4 | h4
        · exact absurd h4.symm h2
        · exact h4
      rcases ih h3 with ⟨v, hv⟩
      exact ⟨v, by rw [lookupKV, if_neg h2]; exact hv⟩

theorem lookupKV_perm {l1 l2 : ClaimSet} (hp : l1.Perm l2) (hnd : (keysOf l1).Nodup)
    (k : String) : lookupKV l1 k = lookupKV l2 k := by
  induction hp with
  | nil => rfl
  | cons x p ih =>
    obtain ⟨k', v'⟩ := x
    simp only [keysOf, List.map_cons, List.nodup_cons] at hnd
    by_cases h : k' = k
    · simp [lookupKV, h]
    · simp [lookupKV, h, ih hnd.2]
  | swap x y l =>
    obtain ⟨k1, v1⟩ := y
    obtain ⟨k2, v2⟩ := x
    simp only [keysOf, List.map_cons, List.nodup_cons, List.mem_cons, not_or] at hnd
    have hne : k1 ≠ k2 := hnd.1.1
    by_cases h1 : k1 = k
    · subst h1
      have h2 : ¬(k2 = k1) := fun he => hne he.symm
      simp [lookupKV, h2]
    · by_cases h2 : k2 = k
      · subst h2
        simp [lookupKV, h1]
      · simp [lookupKV, h1, h2]
  | trans p1 p2 ih1 ih2 =>
    rw [ih1 hnd, ih2 (((p1.map Prod.fst).nodup_iff).1 hnd)]

/-! String helpers. -/

theorem datestamp_length : ("_datestamp" : String).length = 10 := rfl

theorem ne_append_datestamp_of_short {k : String} (h : k.length < 10) (k' : String) :
    k ≠ k' ++ "_datestamp" := by
  intro he
  have hl := congrArg String.length he
  rw [String.length_append, datestamp_length] at hl
  omega

theorem ne_self_append_datestamp (k : String) : k ≠ k ++ "_datestamp" := by
  intro he
  have hl := congrArg String.length he
  rw [String.length_append, datestamp_length] at hl
  omega

theorem append_datestamp_inj {a b : String} (h : a ++ "_datestamp" = b ++ "_datestamp") :
    a = b := by
  have hd := congrArg String.data h
  rw [String.data_append, String.data_append] at hd
  obtain ⟨da⟩ := a
  obtain ⟨db⟩ := b
  exact congrArg String.mk (List.append_cancel_right hd)

/-! Characterization of the flattened map. -/

/-- Specification-side value transform of one `flattenStep`: nested maps and
arrays are replaced by their compact JSON string, scalars pass through. -/
def flatVal : JSONValue → JSONValue
  | .obj fs => .str (jsonCompact (.obj fs))
  | .arr items => .str (jsonCompact (.arr items))
  | v => v

/-- Specification-side expansion of one claim entry into the flattened-map
entries that `flattenStep` produces for it. -/
def expandEntry (c : Bool) (u : String) (kv : String × JSONValue) : ClaimSet :=
  if c then
    match P2.convertEpochToHumanReadable kv.1 kv.2 u with
    | some d => [(kv.1, flatVal kv.2), (kv.1 ++ "_datestamp", .str d)]
    | none => [(kv.1, flatVal kv.2)]
  else [(kv.1, flatVal kv.2)]

theorem flattenStep_empty_pre (c : Bool) (u : String) (acc : ClaimSet) (kv : String × JSONValue) :
    P2.flattenStep "" c u acc kv =
      if c then
        match P2.convertEpochToHumanReadable kv.1 kv.2 u with
        | some d => insertKV (insertKV acc kv.1 (flatVal kv.2)) (kv.1 ++ "_datestamp") (.str d)
        | none => insertKV acc kv.1 (flatVal kv.2)
      else insertKV acc kv.1 (flatVal kv.2) := by
  obtain ⟨k, v⟩ := kv
  rcases hc : P2.convertEpochToHumanReadable k v u with _ | d <;>
    cases c <;> cases v <;> simp [P2.flattenStep, flatVal, hc]

theorem mem_keysOf_flattenStep {c : Bool} {u : String} {acc : ClaimSet}
    {kv : String × JSONValue} {t : String} :
    t ∈ keysOf (P2.flattenStep "" c u acc kv) ↔
      t = kv.1 ∨
      (t = kv.1 ++ "_datestamp" ∧ c = true ∧
        (P2.convertEpochToHumanReadable kv.1 kv.2 u).isSome) ∨
      t ∈ keysOf acc := by
  rw [flattenStep_empty_pre]
  rcases hc : P2.convertEpochToHumanReadable kv.1 kv.2 u with _ | d <;> cases c <;>
    simp [mem_keysOf_insertKV, hc] <;> tauto

theorem mem_keysOf_foldl_flattenStep {c : Bool} {u : String} {t : String}
    (l : ClaimSet) (acc : ClaimSet) :
    t ∈ keysOf (l.foldl (P2.flattenStep "" c u) acc) ↔
      t ∈ keysOf acc ∨
      ∃ kv ∈ l, t = kv.1 ∨
        (t = kv.1 ++ "_datestamp" ∧ c = true ∧
          (P2.convertEpochToHumanReadable kv.1 kv.2 u).isSome) := by
  induction l generalizing acc with
  | nil => simp
  | cons kv l ih =>
    rw [List.foldl_cons, ih, mem_keysOf_flattenStep]
    simp only [List.mem_cons, exists_eq_or_imp]
    aesop

theorem mem_keysOf_flattenClaims {claims : ClaimSet} {c : Bool} {u : String} {t : String} :
    t ∈ keysOf (P2.flattenClaims claims "" c u) ↔
      ∃ kv ∈ claims, t = kv.1 ∨
        (t = kv.1 ++ "_datestamp" ∧ c = true ∧
          (P2.convertEpochToHumanReadable kv.1 kv.2 u).isSome) := by
  rw [P2.flattenClaims, mem_keysOf_foldl_flattenStep]
  simp [keysOf]

theorem nodup_keysOf_foldl_flattenStep {c : Bool} {u : String} :
    ∀ (l acc : ClaimSet),
      (keysOf acc).Nodup → (keysOf (l.foldl (P2.flattenStep "" c u) acc)).Nodup := by
  intro l
  induction l with
  | nil => intro acc h; simpa using h
  | cons kv l ih =>
    intro acc h
    rw [List.foldl_cons]
    apply ih
    rw [flattenStep_empty_pre]
    rcases hc : P2.convertEpochToHumanReadable kv.1 kv.2 u with _ | d <;> cases c <;>
      first
        | exact nodup_keysOf_insertKV (nodup_keysOf_insertKV h)
        | exact nodup_keysOf_insertKV h

theorem nodup_keysOf_flattenClaims (claims : ClaimSet) (c : Bool) (u : String) :
    (keysOf (P2.flattenClaims claims "" c u)).Nodup :=
  nodup_keysOf_foldl_flattenStep claims [] (by simp [keysOf])

theorem lookupKV_foldl_flattenStep_not_mem {c : Bool} {u : String} {k : String}
    (hds : ∀ k', k ≠ k' ++ "_datestamp") :
    ∀ (l acc : ClaimSet), k ∉ keysOf l →
      lookupKV (l.foldl (P2.flattenStep "" c u) acc) k = lookupKV acc k := by
  intro l
  induction l with
  | nil => intro acc _; rfl
  | cons kv l ih =>
    intro acc hk
    simp only [keysOf, List.map_cons, List.mem_cons, not_or] at hk
    rw [List.foldl_cons, ih _ (by simpa [keysOf] using hk.2)]
    have h1 : kv.1 ≠ k := fun he => hk.1 he.symm
    have h2 : kv.1 ++ "_datestamp" ≠ k := fun he => hds kv.1 he.symm
    rw [flattenStep_empty_pre]
    rcases hc : P2.convertEpochToHumanReadable kv.1 kv.2 u with _ | d <;> cases c <;>
      simp [lookupKV_insertKV_ne h1, lookupKV_insertKV_ne h2]

theorem lookupKV_flattenClaims {claims : ClaimSet} {c : Bool} {u : String} {k : String}
    {v : JSONValue} (hnd : (keysOf claims).Nodup) (hds : ∀ k', k ≠ k' ++ "_datestamp")
    (hv : lookupKV claims k = some v) :
    lookupKV (P2.flattenClaims claims "" c u) k = some (flatVal v) := by
  rw [P2.flattenClaims]
  suffices h : ∀ (l acc : ClaimSet), (keysOf l).Nodup → lookupKV l k = some v →
      lookupKV (l.foldl (P2.flattenStep "" c u) acc) k = some (flatVal v) from
    h claims [] hnd hv
  intro l
  induction l with
  | nil => intro acc _ hv0; simp [lookupKV] at hv0
  | cons kv l ih =>
    intro acc hnd0 hv0
    obtain ⟨k1, v1⟩ := kv
    simp only [keysOf, List.map_cons, List.nodup_cons] at hnd0
    rw [List.foldl_cons]
    by_cases h1 : k1 = k
    · subst h1
      rw [lookupKV, if_pos rfl] at hv0
      injection hv0 with hv0
      subst hv0
      rw [lookupKV_foldl_flattenStep_not_mem hds _ _ hnd0.1]
      have h2 : k1 ++ "_datestamp" ≠ k1 := fun he => (ne_self_append_datestamp k1) he.symm
      rw [flattenStep_empty_pre]
      rcases hc : P2.convertEpochToHumanReadable k1 v1 u with _ | d <;> cases c <;>
        simp [lookupKV_insertKV_ne h2, lookupKV_insertKV_self]
    · rw [lookupKV, if_neg h1] at hv0
      exact ih _ hnd0.2 hv0

theorem mem_keysOf_expandEntry {c : Bool} {u : String} {kv : String × JSONValue} {t : String}
    (h : t ∈ keysOf (expandEntry c u kv)) : t = kv.1 ∨ t = kv.1 ++ "_datestamp" := by
  rw [expandEntry] at h
  cases c with
  | false =>
    simp only [Bool.false_eq_true, if_false, keysOf, List.map_cons, List.map_nil,
      List.mem_singleton] at h
    exact Or.inl h
  | true =>
    rcases hc : P2.convertEpochToHumanReadable kv.1 kv.2 u with _ | d <;>
      simp only [hc, if_true, keysOf, List.map_cons, List.map_nil, List.mem_cons,
        List.mem_singleton, List.not_mem_nil, or_false] at h <;> tauto

theorem flattenStep_fresh {c : Bool} {u : String} {acc : ClaimSet} {kv : String × JSONValue}
    (h1 : kv.1 ∉ keysOf acc) (h2 : kv.1 ++ "_datestamp" ∉ keysOf acc) :
    P2.flattenStep "" c u acc kv = acc ++ expandEntry c u kv := by
  have h3 : kv.1 ++ "_datestamp" ∉ keysOf (acc ++ [(kv.1, flatVal kv.2)]) := by
    simp only [keysOf, List.map_append, List.mem_append, List.map_cons, List.map_nil,
      List.mem_singleton, not_or]
    exact ⟨h2, fun he => ne_self_append_datestamp kv.1 he.symm⟩
  rw [flattenStep_empty_pre, expandEntry]
  rcases hc : P2.convertEpochToHumanReadable kv.1 kv.2 u with _ | d <;> cases c <;>
    simp only [hc, if_true, if_false, Bool.false_eq_true, insertKV_of_not_mem h1,
      insertKV_of_not_mem h3, List.append_assoc, List.cons_append, List.nil_append]

theorem foldl_flattenStep_eq_append {c : Bool} {u : String} :
    ∀ (l acc : ClaimSet),
      (keysOf l).Nodup →
      (∀ k ∈ keysOf l, ∀ k', k ≠ k' ++ "_datestamp") →
      (∀ k ∈ keysOf l, k ∉ keysOf acc) →
      (∀ k ∈ keysOf l, k ++ "_datestamp" ∉ keysOf acc) →
      l.foldl (P2.flattenStep "" c u) acc = acc ++ l.flatMap (expandEntry c u) := by
  intro l
  induction l with
  | nil => intro acc _ _ _ _; simp
  | cons kv l ih =>
    intro acc hnd hds hfresh hfreshds
    have hmemhd : kv.1 ∈ keysOf (kv :: l) := by simp [keysOf]
    have hmemtl : ∀ k ∈ keysOf l, k ∈ keysOf (kv :: l) := by
      intro k hk
      simp only [keysOf, List.map_cons, List.mem_cons]
      exact Or.inr hk
    simp only [keysOf, List.map_cons, List.nodup_cons] at hnd
    rw [List.foldl_cons, List.flatMap_cons,
      flattenStep_fresh (hfresh kv.1 hmemhd) (hfreshds kv.1 hmemhd)]
    rw [ih (acc ++ expandEntry c u kv) hnd.2 (fun k hk => hds k (hmemtl k hk)) ?fresh ?freshds]
    · rw [List.append_assoc]
    case fresh =>
      intro k hk
      simp only [keysOf, List.map_append, List.mem_append, not_or]
      refine ⟨hfresh k (hmemtl k hk), fun hmem => ?_⟩
      rcases mem_keysOf_expandEntry hmem with h | h
      · exact hnd.1 (h ▸ hk)
      · exact hds k (hmemtl k hk) kv.1 h
    case freshds =>
      intro k hk
      simp only [keysOf, List.map_append, List.mem_append, not_or]
      refine ⟨hfreshds k (hmemtl k hk), fun hmem => ?_⟩
      rcases mem_keysOf_expandEntry hmem with h | h
      · exact hds kv.1 hmemhd k h.symm
      · exact hnd.1 (append_datestamp_inj h ▸ hk)

theorem flattenClaims_eq_flatMap {claims : ClaimSet} {c : Bool} {u : String}
    (hnd : (keysOf claims).Nodup)
    (hds : ∀ k ∈ keysOf claims, ∀ k', k ≠ k' ++ "_datestamp") :
    P2.flattenClaims claims "" c u = claims.flatMap (expandEntry c u) := by
  rw [P2.flattenClaims,
    foldl_flattenStep_eq_append claims [] hnd hds (by simp [keysOf]) (by simp [keysOf])]
  simp

/-! Order theory of the byte-wise comparator. -/

theorem charListLe_trans : ∀ {l1 l2 l3 : List Char}, charListLe l1 l2 = true →
    charListLe l2 l3 = true → charListLe l1 l3 = true
  | [], _, _, _, _ => rfl
  | _ :: _, [], _, h1, _ => by simp [charListLe] at h1
  | _ :: _, _ :: _, [], _, h2 => by simp [charListLe] at h2
  | c1 :: t1, c2 :: t2, c3 :: t3, h1, h2 => by
    rw [charListLe] at h1 h2 ⊢
    by_cases e12 : c1.toNat = c2.toNat
    · rw [if_pos e12] at h1
      by_cases e23 : c2.toNat = c3.toNat
      · rw [if_pos e23] at h2
        rw [if_pos (e12.trans e23)]
        exact charListLe_trans h1 h2
      · rw [if_neg e23, decide_eq_true_eq] at h2
        rw [if_neg (fun h => e23 (e12.symm.trans h)), decide_eq_true_eq]
        omega
    · rw [if_neg e12, decide_eq_true_eq] at h1
      by_cases e23 : c2.toNat = c3.toNat
      · rw [if_neg (fun h => e12 (h.trans e23.symm)), decide_eq_true_eq]
        omega
      · rw [if_neg e23, decide_eq_true_eq] at h2
        rw [if_neg (by omega), decide_eq_true_eq]
        omega

theorem charListLe_total : ∀ (l1 l2 : List Char),
    charListLe l1 l2 = true ∨ charListLe l2 l1 = true
  | [], _ => Or.inl rfl
  | _ :: _, [] => Or.inr rfl
  | c1 :: t1, c2 :: t2 => by
    rw [charListLe, charListLe]
    by_cases e : c1.toNat = c2.toNat
    · rw [if_pos e, if_pos e.symm]
      exact charListLe_total t1 t2
    · rw [if_neg e, if_neg (fun h => e h.symm), decide_eq_true_eq, decide_eq_true_eq]
      omega

theorem charListLe_antisymm : ∀ {l1 l2 : List Char}, charListLe l1 l2 = true →
    charListLe l2 l1 = true → l1 = l2
  | [], [], _, _ => rfl
  | [], _ :: _, _, h2 => by simp [charListLe] at h2
  | _ :: _, [], h1, _ => by simp [charListLe] at h1
  | c1 :: t1, c2 :: t2, h1, h2 => by
    rw [charListLe] at h1 h2
    by_cases e : c1.toNat = c2.toNat
    · rw [if_pos e] at h1
      rw [if_pos e.symm] at h2
      rw [Char.eq_of_val_eq (UInt32.ext e), charListLe_antisymm h1 h2]
    · rw [if_neg e, decide_eq_true_eq] at h1
      rw [if_neg (fun h => e h.symm), decide_eq_true_eq] at h2
      omega

theorem charListLt_of_le_of_ne : ∀ {l1 l2 : List Char}, charListLe l1 l2 = true →
    l1 ≠ l2 → charListLt l1 l2 = true
  | [], [], _, hne => absurd rfl hne
  | [], _ :: _, _, _ => rfl
  | _ :: _, [], h1, _ => by simp [charListLe] at h1
  | c1 :: t1, c2 :: t2, h1, hne => by
    rw [charListLe] at h1
    rw [charListLt]
    by_cases e : c1.toNat = c2.toNat
    · rw [if_pos e] at h1
      rw [if_pos e]
      have hc : c1 = c2 := Char.eq_of_val_eq (UInt32.ext e)
      exact charListLt_of_le_of_ne h1 (fun ht => hne (by rw [hc, ht]))
    · rw [if_neg e] at h1
      rw [if_neg e]
      exact h1

theorem str_ext {a b : String} (h : a.data = b.data) : a = b := by
  obtain ⟨da⟩ := a
  obtain ⟨db⟩ := b
  exact congrArg String.mk h

instance : IsTrans String (fun a b => strLeb a b = true) :=
  ⟨fun _ _ _ h1 h2 => charListLe_trans h1 h2⟩

instance : IsTotal String (fun a b => strLeb a b = true) :=
  ⟨fun a b => charListLe_total a.data b.data⟩

instance : IsAntisymm String (fun a b => strLeb a b = true) :=
  ⟨fun _ _ h1 h2 => str_ext (charListLe_antisymm h1 h2)⟩

theorem strLtb_of_strLeb_of_ne {a b : String} (h1 : strLeb a b = true) (h2 : a ≠ b) :
    strLtb a b = true :=
  charListLt_of_le_of_ne h1 (fun hd => h2 (str_ext hd))

/-- Two permuted key lists have the same sorted order (`sort.Strings` output
is determined by the key multiset). -/
theorem sortStrings_eq_of_perm {l l' : List String} (h : l.Perm l') :
    sortStrings l = sortStrings l' :=
  List.eq_of_perm_of_sorted
    ((List.perm_insertionSort _ l).trans (h.trans (List.perm_insertionSort _ l').symm))
    (List.sorted_insertionSort _ l) (List.sorted_insertionSort _ l')

/-! Unfolding of the heuristic branch of the two normalizers. -/

theorem P2.convertEpochNanos_unrec (v : Int) (u : String)
    (h : goToLower u ∉ (["s", "seconds", "ms", "milliseconds", "us", "microseconds",
      "ns", "nanoseconds"] : List String)) :
    P2.convertEpochNanos v u = if 10000000000 < v then v * 1000000 else v * 1000000000 := by
  rw [P2.convertEpochNanos]
  split <;> simp_all

theorem FG.convertEpochNanosFG_unrec (v : Int) (u : String)
    (h : goToLower u ∉ (["s", "seconds", "ms", "milliseconds", "us", "microseconds",
      "ns", "nanoseconds"] : List String)) :
    FG.convertEpochNanos v u = if 100000000000 < v then v * 1000000 else v * 1000000000 := by
  rw [FG.convertEpochNanos]
  split <;> simp_all

/-- Claim C5: for every claim set, configuration and unit, the CSV header
cells (the sorted `headers` slice of `FormatCSV`) are in strictly ascending
byte-wise lexicographic order (`strLtb` is the byte-wise strict order; keys
of the flattened map are distinct because it is a map, and `sort.Strings`
sorts ascending). -/
theorem claim_C5_csv_headers_strictly_sorted (claims : ClaimSet) (c : Bool) (u : String) :
    (P2.csvHeaders claims c u).Sorted (fun a b => strLtb a b = true) := by
  have hsorted : (P2.csvHeaders claims c u).Sorted (fun a b => strLeb a b = true) := by
    rw [P2.csvHeaders, sortStrings]
    exact List.sorted_insertionSort _ _
  have hnd : (P2.csvHeaders claims c u).Nodup := by
    rw [P2.csvHeaders, sortStrings]
    exact (List.perm_insertionSort _ _).nodup_iff.2 (nodup_keysOf_flattenClaims claims c u)
  exact (hsorted.and hnd).imp (fun h => strLtb_of_strLeb_of_ne h.1 h.2)

/-- Claim C1 (code bug): for the claim set `{"iat": 1700000000}` with
conversion enabled and unit `"s"`, the JSON and CSV outputs contain the
companion datestamp `2023-11-14 22:13:20 UTC`, but the XML output does not:
`mapClaimsToXMLNode` stores the datestamp in the `Attrs` field, whose struct
tag `xml:"-"` makes the encoder drop it.  The original scalar value
(`1.7e+09`) is kept as the element content. -/
theorem claim_C1_xml_datestamp_dropped :
    containsStr "2023-11-14 22:13:20 UTC"
      (P2.FormatJSON [("iat", JSONValue.num 1700000000)] true "s") = true ∧
    containsStr "2023-11-14 22:13:20 UTC"
      (P2.FormatCSV [("iat", JSONValue.num 1700000000)] true "s") = true ∧
    containsStr "2023-11-14 22:13:20 UTC"
      (P2.FormatXML [("iat", JSONValue.num 1700000000)] true "s") = false ∧
    containsStr "1.7e+09"
      (P2.FormatXML [("iat", JSONValue.num 1700000000)] true "s") = true :=
  ⟨by decide, by decide, by decide, by decide⟩

/-- Claim C2, counterexample: the XML renderer wired to `main` emits
elements in map iteration order without sorting, so two iteration orders of
the same claim set (a permutation with distinct keys) produce different
bytes. -/
theorem claim_C2_counterexample :
    ([("a", JSONValue.str "x"), ("b", JSONValue.str "y")] : ClaimSet).Perm
      [("b", JSONValue.str "y"), ("a", JSONValue.str "x")] ∧
    (keysOf [("a", JSONValue.str "x"), ("b", JSONValue.str "y")]).Nodup ∧
    P2.FormatXML [("a", JSONValue.str "x"), ("b", JSONValue.str "y")] false "" ≠
      P2.FormatXML [("b", JSONValue.str "y"), ("a", JSONValue.str "x")] false "" :=
  ⟨List.Perm.swap _ _ _, by decide, by decide⟩

/-- Claim C2, amended: CSV rendering is byte-identical across map iteration
orders (permutations of a claim set with distinct keys), provided no claim
key ends in `"_datestamp"` (a key colliding with a synthetic companion key
makes the flattened map order-dependent through last-write-wins). -/
theorem claim_C2_amended (l1 l2 : ClaimSet) (c : Bool) (u : String) (hp : l1.Perm l2)
    (hnd : (keysOf l1).Nodup)
    (hds : ∀ k ∈ keysOf l1, ∀ k', k ≠ k' ++ "_datestamp") :
    P2.FormatCSV l1 c u = P2.FormatCSV l2 c u := by
  have hnd2 : (keysOf l2).Nodup := ((hp.map Prod.fst).nodup_iff).1 hnd
  have hds2 : ∀ k ∈ keysOf l2, ∀ k', k ≠ k' ++ "_datestamp" := fun k hk =>
    hds k ((hp.map Prod.fst).mem_iff.2 hk)
  have hfl : (P2.flattenClaims l1 "" c u).Perm (P2.flattenClaims l2 "" c u) := by
    rw [flattenClaims_eq_flatMap hnd hds, flattenClaims_eq_flatMap hnd2 hds2]
    exact hp.flatMap_right _
  have hheaders : P2.csvHeaders l1 c u = P2.csvHeaders l2 c u := by
    rw [P2.csvHeaders, P2.csvHeaders]
    exact sortStrings_eq_of_perm (hfl.map Prod.fst)
  have hlook := lookupKV_perm hfl (nodup_keysOf_flattenClaims l1 c u)
  rw [P2.FormatCSV, P2.FormatCSV, P2.csvRow, P2.csvRow, hheaders]
  have hrow : ((P2.csvHeaders l2 c u).map fun h =>
      escapeCSVValue (goFmtV ((lookupKV (P2.flattenClaims l1 "" c u) h).getD .null))) =
      ((P2.csvHeaders l2 c u).map fun h =>
      escapeCSVValue (goFmtV ((lookupKV (P2.flattenClaims l2 "" c u) h).getD .null))) :=
    List.map_congr_left fun h _ => by rw [hlook h]
  rw [hrow]

/-- Witness for the amended claim C2 at a concrete permuted pair. -/
theorem claim_C2_witness :
    P2.FormatCSV [("iat", JSONValue.num 1700000000), ("sub", JSONValue.str "alice")] true "s" =
      P2.FormatCSV [("sub", JSONValue.str "alice"), ("iat", JSONValue.num 1700000000)] true "s" :=
  claim_C2_amended _ _ true "s" (List.Perm.swap _ _ _) (by decide)
    (fun k hk k' => by
      rcases (by simpa [keysOf] using hk : k = "iat" ∨ k = "sub") with rfl | rfl
      · exact ne_append_datestamp_of_short (by decide) k'
      · exact ne_append_datestamp_of_short (by decide) k')

/-- Claim C3, counterexample: no single threshold on the magnitude of the
value reproduces the heuristic of the normalizer wired to `main`
(`src/unnamed/part_002`): the Go code compares `timestamp > 1e10` with a
signed comparison, so a negative value of large magnitude is interpreted as
seconds although its magnitude exceeds any candidate threshold. -/
theorem claim_C3_counterexample :
    ¬ ∃ T : Int, ∀ v : Int,
      P2.convertEpochNanos v "" = if T < |v| then v * 1000000 else v * 1000000000 := by
  rintro ⟨T, h⟩
  have ha : 0 ≤ |T| := abs_nonneg T
  have hT : T ≤ |T| := le_abs_self T
  have h0 := h (-(|T| + 1))
  rw [P2.convertEpochNanos_unrec _ _ (by decide), if_neg (by linarith),
    if_pos (by rw [abs_neg, abs_of_nonneg (by linarith)]; linarith)] at h0
  have h3 : (|T| + 1) * 999000000 = 0 := by linarith
  rcases mul_eq_zero.mp h3 with h5 | h5
  · linarith
  · norm_num at h5

/-- Claim C3, amended: with an empty or unrecognized unit, the normalizer of
`src/unnamed/part_002` (wired to `main`) interprets the value as
milliseconds exactly when the signed value exceeds `1e10`, and the duplicate
normalizer in `src/formatter/formatter.go` exactly when it exceeds `1e11`;
otherwise both interpret it as seconds. -/
theorem claim_C3_amended (v : Int) (u : String)
    (h : goToLower u ∉ (["s", "seconds", "ms", "milliseconds", "us", "microseconds",
      "ns", "nanoseconds"] : List String)) :
    (P2.convertEpochNanos v u = if 10000000000 < v then v * 1000000 else v * 1000000000) ∧
    (FG.convertEpochNanos v u = if 100000000000 < v then v * 1000000 else v * 1000000000) :=
  ⟨P2.convertEpochNanos_unrec v u h, FG.convertEpochNanosFG_unrec v u h⟩

/-- Witness for the amended claim C3 at a concrete value and empty unit. -/
theorem claim_C3_witness :
    (P2.convertEpochNanos 123 "" =
      if 10000000000 < (123 : Int) then 123 * 1000000 else 123 * 1000000000) ∧
    (FG.convertEpochNanos 123 "" =
      if 100000000000 < (123 : Int) then 123 * 1000000 else 123 * 1000000000) :=
  claim_C3_amended 123 "" (by decide)

/-- Claim C4, counterexample: a claim value containing a line feed is copied
into the quoted CSV cell unchanged, so the rendered output has three
newline characters (three physical lines), not two. -/
theorem claim_C4_counterexample :
    ((P2.FormatCSV [("a", JSONValue.str "x\ny")] false "").data.count '\n') = 3 := by
  decide

/-- Whether the first byte of a string is one of the CSV formula-trigger
characters `=`, `+`, `-`, `@` (the condition `escapeCSVValue` tests). -/
def leadsFormulaChar (s : String) : Bool :=
  match s.data with
  | [] => false
  | c :: _ => c = '=' || c = '+' || c = '-' || c = '@'

theorem escapeCSVValue_eq_quote {s : String} (h : leadsFormulaChar s = true) :
    escapeCSVValue s = "'" ++ s := by
  rw [leadsFormulaChar] at h
  rw [escapeCSVValue]
  rcases hd : s.data with _ | ⟨c, t⟩
  · rw [hd] at h
    simp at h
  · rw [hd] at h
    exact if_pos h

theorem P2.convert_isSome_iff {k : String} {v : JSONValue} {u : String} :
    (P2.convertEpochToHumanReadable k v u).isSome = true ↔
      isEpochKey k = true ∧ ∃ n : Int, v = .num n := by
  cases v <;> by_cases he : isEpochKey k = true <;>
    simp [P2.convertEpochToHumanReadable, he]

theorem FG.convertFG_isSome_iff {k : String} {v : JSONValue} {u : String} :
    (FG.convertEpochToHumanReadable k v u).isSome = true ↔
      isEpochKey k = true ∧ ∃ n : Int, v = .num n := by
  cases v <;> by_cases he : isEpochKey k = true <;>
    simp [FG.convertEpochToHumanReadable, he]

/-- Claim C6: for a claim with key `k` and value `v`, if the string form of
the corresponding flattened cell begins with `=`, `+`, `-` or `@`, then the
CSV data row carries, at the position of `k` among the sorted headers, the
cell consisting of a single quote followed by that original string (before
the standard CSV field encoding).  The hypotheses say that the claim keys
are distinct (a Go map), that `k` is bound to `v`, and that `k` is not
itself shaped like a synthetic companion key. -/
theorem claim_C6_csv_injection_escape (claims : ClaimSet) (c : Bool) (u : String)
    (k : String) (v : JSONValue)
    (hnd : (keysOf claims).Nodup)
    (hv : lookupKV claims k = some v)
    (hkds : ∀ k', k ≠ k' ++ "_datestamp")
    (hinj : leadsFormulaChar (goFmtV (flatVal v)) = true) :
    (P2.csvRow claims c u).get? ((P2.csvHeaders claims c u).indexOf k) =
      some ("'" ++ goFmtV (flatVal v)) := by
  have hfl : lookupKV (P2.flattenClaims claims "" c u) k = some (flatVal v) :=
    lookupKV_flattenClaims hnd hkds hv
  have hkmem : k ∈ keysOf (P2.flattenClaims claims "" c u) := mem_keysOf_of_lookupKV hfl
  have hkhead : k ∈ P2.csvHeaders claims c u := by
    rw [P2.csvHeaders, sortStrings]
    exact (List.perm_insertionSort _ _).mem_iff.2 hkmem
  have hlt : (P2.csvHeaders claims c u).indexOf k < (P2.csvHeaders claims c u).length :=
    List.indexOf_lt_length.2 hkhead
  rw [P2.csvRow, List.get?_eq_getElem?, List.getElem?_map,
    List.getElem?_eq_getElem hlt, List.getElem_indexOf hlt]
  rw [Option.map_some']
  rw [hfl]
  rw [Option.getD_some]
  rw [escapeCSVValue_eq_quote hinj]

/-- Witness for claim C6 at a concrete claim set. -/
theorem claim_C6_witness :
    (P2.csvRow [("x", JSONValue.str "=cmd")] false "").get?
        ((P2.csvHeaders [("x", JSONValue.str "=cmd")] false "").indexOf "x") =
      some ("'" ++ goFmtV (flatVal (JSONValue.str "=cmd"))) :=
  claim_C6_csv_injection_escape _ false "" "x" _ (by decide) rfl
    (ne_append_datestamp_of_short (by decide)) (by decide)

/-- Claim C10: the injection guard is applied only to data cells, never to
header cells: a claim key beginning with `=`, `+`, `-` or `@` appears in the
header row verbatim, and no quote-prefixed copy of it appears (assuming the
claim set does not itself contain the quote-prefixed key). -/
theorem claim_C10_headers_not_escaped (claims : ClaimSet) (c : Bool) (u : String)
    (k : String) (hk : k ∈ keysOf claims)
    (hinj : leadsFormulaChar k = true)
    (hq : ("'" ++ k) ∉ keysOf claims) :
    k ∈ P2.csvHeaders claims c u ∧ ("'" ++ k) ∉ P2.csvHeaders claims c u := by
  constructor
  · rw [P2.csvHeaders, sortStrings]
    refine (List.perm_insertionSort _ _).mem_iff.2 ?_
    rw [mem_keysOf_flattenClaims]
    obtain ⟨kv, hkv, hfst⟩ := List.mem_map.1 hk
    exact ⟨kv, hkv, Or.inl hfst.symm⟩
  · rw [P2.csvHeaders, sortStrings]
    intro hmem
    have hmem2 := (List.perm_insertionSort _ _).mem_iff.1 hmem
    rw [mem_keysOf_flattenClaims] at hmem2
    obtain ⟨kv, hkv, hcase⟩ := hmem2
    rcases hcase with hcase | ⟨hcase, -, hsome⟩
    · exact hq (hcase ▸ List.mem_map.2 ⟨kv, hkv, rfl⟩)
    · have hepoch : isEpochKey kv.1 = true := (P2.convert_isSome_iff.1 hsome).1
      have h4 : ((kv.1 = "iat" ∨ kv.1 = "exp") ∨ kv.1 = "nbf") ∨ kv.1 = "auth_time" := by
        rw [isEpochKey] at hepoch
        simpa using hepoch
      have hdata := congrArg String.data hcase
      rw [String.data_append, String.data_append] at hdata
      rcases h4 with ((h4 | h4) | h4) | h4 <;> rw [h4] at hdata <;> simp at hdata

/-- Witness for claim C10 at a concrete claim set with a formula-leading key. -/
theorem claim_C10_witness :
    ("=x") ∈ P2.csvHeaders [("=x", JSONValue.num 1)] false "" ∧
    ("'" ++ "=x") ∉ P2.csvHeaders [("=x", JSONValue.num 1)] false "" :=
  claim_C10_headers_not_escaped _ false "" "=x" (by decide) (by decide) (by decide)

/-! Membership in the keys of the preprocessed map (`FG.PreprocessClaims`). -/

theorem mem_keysOf_preprocessStep {u : String} {acc : ClaimSet} {kv : String × JSONValue}
    {t : String} :
    t ∈ keysOf (FG.preprocessStep u acc kv) ↔
      t = kv.1 ∨
      (t = kv.1 ++ "_datestamp" ∧ (FG.convertEpochToHumanReadable kv.1 kv.2 u).isSome) ∨
      t ∈ keysOf acc := by
  rw [FG.preprocessStep]
  rcases hc : FG.convertEpochToHumanReadable kv.1 kv.2 u with _ | d <;>
    simp [hc, mem_keysOf_insertKV] <;> tauto

theorem mem_keysOf_foldl_preprocessStep {u : String} {t : String}
    (l : ClaimSet) (acc : ClaimSet) :
    t ∈ keysOf (l.foldl (FG.preprocessStep u) acc) ↔
      t ∈ keysOf acc ∨
      ∃ kv ∈ l, t = kv.1 ∨
        (t = kv.1 ++ "_datestamp" ∧ (FG.convertEpochToHumanReadable kv.1 kv.2 u).isSome) := by
  induction l generalizing acc with
  | nil => simp
  | cons kv l ih =>
    rw [List.foldl_cons, ih, mem_keysOf_preprocessStep]
    simp only [List.mem_cons, exists_eq_or_imp]
    aesop

/-- Claim C7: a synthetic companion entry `<k>_datestamp` is present in the
preprocessed claim set exactly when normalization is enabled, `k` is one of
the four recognized timestamp claim names, and the value bound to `k` is
numerically interpretable.  The normalizer itself is a total function (its
Go `("", false)` return is the `none` of the model): unconvertible input
merely omits the companion.  The hypotheses say the claim keys are distinct
(a Go map) and that the claim set does not already contain an entry that is
literally named `<k>_datestamp`. -/
theorem claim_C7_companion_iff (claims : ClaimSet) (convertEpoch : Bool) (epochUnit : String)
    (k : String) (hnd : (keysOf claims).Nodup)
    (hfresh : (k ++ "_datestamp") ∉ keysOf claims) :
    ((k ++ "_datestamp") ∈ keysOf (FG.PreprocessClaims claims convertEpoch epochUnit) ↔
      convertEpoch = true ∧ isEpochKey k = true ∧
        ∃ n : Int, lookupKV claims k = some (.num n)) := by
  rw [FG.PreprocessClaims]
  cases convertEpoch with
  | false => simpa using hfresh
  | true =>
    rw [Bool.not_true, if_neg (by simp)]
    rw [mem_keysOf_foldl_preprocessStep]
    simp only [keysOf, List.map_nil, List.not_mem_nil, false_or, true_and]
    constructor
    · rintro ⟨kv, hkv, hcase | ⟨hds, hsome⟩⟩
      · exact absurd (hcase ▸ List.mem_map.2 ⟨kv, hkv, rfl⟩) hfresh
      · have hk1 : k = kv.1 := append_datestamp_inj hds
        obtain ⟨hep, n, hn⟩ := FG.convertFG_isSome_iff.1 hsome
        refine ⟨hk1 ▸ hep, n, ?_⟩
        have hmem : (k, JSONValue.num n) ∈ claims := by
          rw [hk1]
          have h5 : (kv.1, JSONValue.num n) = kv := by
            rw [← hn]
          rw [h5]
          exact hkv
        exact lookupKV_eq_some_of_mem hnd hmem
    · rintro ⟨hep, n, hlook⟩
      exact ⟨(k, JSONValue.num n), mem_of_lookupKV_eq_some hlook,
        Or.inr ⟨rfl, FG.convertFG_isSome_iff.2 ⟨hep, n, rfl⟩⟩⟩

/-- Witness for claim C7: the companion is present for `iat` at a convertible
value with conversion enabled. -/
theorem claim_C7_witness :
    ("iat" ++ "_datestamp") ∈ keysOf (FG.PreprocessClaims
      [("iat", JSONValue.num 1700000000), ("foo", JSONValue.str "x")] true "s") :=
  (claim_C7_companion_iff _ true "s" "iat" (by decide) (by decide)).mpr
    ⟨rfl, by decide, 1700000000, rfl⟩

/-- Claim C8: whenever the rendered output of the selected renderer exceeds
the configured output-size ceiling (in bytes, `maxOutputSize` megabytes),
`main` fails with the size-limit error and performs no write on the sink. -/
theorem claim_C8_size_limit (claims : ClaimSet) (format : String) (c : Bool) (u : String)
    (maxOutputSize : Nat) (data : String)
    (hrender : renderOutput claims format c u = some data)
    (hsize : data.utf8ByteSize > maxOutputSize * 1024 * 1024) :
    runMainOutput claims format c u maxOutputSize = (some (sizeLimitMsg maxOutputSize), []) := by
  rw [runMainOutput, hrender]
  exact if_pos hsize

/-- Witness for claim C8: with a zero-megabyte ceiling every nonempty render
fails and nothing is written. -/
theorem claim_C8_witness :
    runMainOutput [("a", JSONValue.str "b")] "JSON" false "" 0 = (some (sizeLimitMsg 0), []) :=
  claim_C8_size_limit _ "JSON" false "" 0
    (P2.FormatJSON [("a", JSONValue.str "b")] false "") rfl (by decide)

/-! Frame lemmas for the heap model. -/

theorem heapGet_heapSet_ne {st : Store} {r r' : Nat} {k : String} {v : JSONValue}
    (h : r ≠ r') : heapGet (heapSet st r k v) r' = heapGet st r' := by
  simp [heapGet, heapSet, List.getD, List.getElem?_set_ne h]

theorem heapGet_heapAlloc {st : Store} {r : Nat} (h : r < st.length) :
    heapGet (heapAlloc st).1 r = heapGet st r := by
  simp [heapGet, heapAlloc, List.getD, List.getElem?_append_left h]

theorem heapGet_foldl_preserve {g : Store → (String × JSONValue) → Store} {pRef : Nat}
    (hg : ∀ (st : Store) (kv : String × JSONValue) (r' : Nat), r' ≠ pRef →
      heapGet (g st kv) r' = heapGet st r') :
    ∀ (l : ClaimSet) (st : Store) (r : Nat), r ≠ pRef →
      heapGet (l.foldl g st) r = heapGet st r := by
  intro l
  induction l with
  | nil => intro st r _; rfl
  | cons kv l ih =>
    intro st r hr
    rw [List.foldl_cons, ih _ _ hr, hg _ _ _ hr]

theorem heapGet_preprocessStepH {pRef : Nat} {u : String} (st : Store)
    (kv : String × JSONValue) (r' : Nat) (h : r' ≠ pRef) :
    heapGet (FG.preprocessStepH pRef u st kv) r' = heapGet st r' := by
  rw [FG.preprocessStepH]
  have hne : pRef ≠ r' := fun he => h he.symm
  rcases hc : FG.convertEpochToHumanReadable kv.1 kv.2 u with _ | d <;>
    simp [hc, heapGet_heapSet_ne hne]

theorem heapGet_extendStepH {pRef : Nat} {c : Bool} {u : String} (st : Store)
    (kv : String × JSONValue) (r' : Nat) (h : r' ≠ pRef) :
    heapGet (P2.extendStepH pRef c u st kv) r' = heapGet st r' := by
  rw [P2.extendStepH]
  have hne : pRef ≠ r' := fun he => h he.symm
  rcases hc : P2.convertEpochToHumanReadable kv.1 kv.2 u with _ | d <;> cases c <;>
    simp [hc, heapGet_heapSet_ne hne]

theorem heapGet_flattenStepH {pRef : Nat} {c : Bool} {u : String} (st : Store)
    (kv : String × JSONValue) (r' : Nat) (h : r' ≠ pRef) :
    heapGet (P2.flattenStepH pRef c u st kv) r' = heapGet st r' := by
  obtain ⟨k1, v1⟩ := kv
  rw [P2.flattenStepH]
  have hne : pRef ≠ r' := fun he => h he.symm
  rcases hc : P2.convertEpochToHumanReadable k1 v1 u with _ | d <;> cases c <;>
    cases v1 <;> simp [hc, heapGet_heapSet_ne hne]

/-- Claim C9: no renderer mutates the claims map it is given.  In the heap
model (Go maps as references into a store) the `PreprocessClaims` copy loop,
the `extendedClaims` loop of `FormatJSON` and the `flattened` loop of
`FormatCSV` write only through the reference of the freshly allocated map,
so after each of them the map the input reference denotes is unchanged.
(The XML renderer allocates no map at all and only reads, so it has no
store effect to state.) -/
theorem claim_C9_no_mutation (st : Store) (ref : Nat) (c : Bool) (u : String)
    (h : ref < st.length) :
    heapGet (FG.PreprocessClaimsH st ref c u).1 ref = heapGet st ref ∧
    heapGet (P2.FormatJSONH st ref c u).1 ref = heapGet st ref ∧
    heapGet (P2.flattenClaimsH st ref c u).1 ref = heapGet st ref := by
  have hne : ref ≠ (heapAlloc st).2 := by
    rw [heapAlloc]
    omega
  refine ⟨?_, ?_, ?_⟩
  · rw [FG.PreprocessClaimsH]
    cases c with
    | false => rfl
    | true =>
      rw [Bool.not_true, if_neg (by simp)]
      rw [heapGet_foldl_preserve (fun st' kv r' hr => heapGet_preprocessStepH st' kv r' hr)
        _ _ _ hne]
      exact heapGet_heapAlloc h
  · rw [P2.FormatJSONH]
    rw [heapGet_foldl_preserve (fun st' kv r' hr => heapGet_extendStepH st' kv r' hr)
      _ _ _ hne]
    exact heapGet_heapAlloc h
  · rw [P2.flattenClaimsH]
    rw [heapGet_foldl_preserve (fun st' kv r' hr => heapGet_flattenStepH st' kv r' hr)
      _ _ _ hne]
    exact heapGet_heapAlloc h

/-- Witness for claim C9 at a concrete one-map store. -/
theorem claim_C9_witness :
    heapGet (FG.PreprocessClaimsH [[("iat", JSONValue.num 1700000000)]] 0 true "s").1 0 =
      heapGet [[("iat", JSONValue.num 1700000000)]] 0 ∧
    heapGet (P2.FormatJSONH [[("iat", JSONValue.num 1700000000)]] 0 true "s").1 0 =
      heapGet [[("iat", JSONValue.num 1700000000)]] 0 ∧
    heapGet (P2.flattenClaimsH [[("iat", JSONValue.num 1700000000)]] 0 true "s").1 0 =
      heapGet [[("iat", JSONValue.num 1700000000)]] 0 :=
  claim_C9_no_mutation _ 0 true "s" (by decide)

/-! Line-feed counting through the CSV pipeline (for the corrected C4). -/

theorem countNL_mk (l : List Char) : countNL ⟨l⟩ = l.count '\n' := rfl

theorem countNL_append (a b : String) : countNL (a ++ b) = countNL a + countNL b := by
  simp only [countNL, String.data_append, List.count_append]

theorem digitChar_ne_nl (d : Nat) : digitChar d ≠ '\n' := by
  unfold digitChar
  split <;> decide

theorem hexDigit_ne_nl (n : Nat) : hexDigit n ≠ '\n' := by
  unfold hexDigit
  split <;> first | decide | exact digitChar_ne_nl _

theorem nl_not_mem_natDigitsF : ∀ (f n : Nat), ('\n' : Char) ∉ natDigitsF f n
  | 0, n => by simp [natDigitsF]
  | f + 1, n => by
    rw [natDigitsF]
    split
    · simp only [List.mem_singleton]
      exact fun h => digitChar_ne_nl n h.symm
    · simp only [List.mem_append, List.mem_singleton, not_or]
      exact ⟨nl_not_mem_natDigitsF f (n / 10), fun h => digitChar_ne_nl (n % 10) h.symm⟩

theorem count_natDigits (n : Nat) : (natDigits n).count '\n' = 0 :=
  List.count_eq_zero.2 (nl_not_mem_natDigitsF _ _)

theorem count_padNat (w n : Nat) : (padNat w n).count '\n' = 0 := by
  have h : ('\n' : Char) ∉ List.replicate (w - (natDigits n).length) '0' := by
    simp [List.mem_replicate]
  rw [padNat, List.count_append, List.count_eq_zero.2 h, count_natDigits]

theorem countNL_intDecimal (n : Int) : countNL (intDecimal n) = 0 := by
  unfold intDecimal
  rw [countNL_append]
  have h2 : countNL ⟨natDigits n.natAbs⟩ = 0 := count_natDigits _
  split <;> rw [h2] <;> decide

theorem nl_not_mem_stripTrailingZeros {l : List Char} (h : ('\n' : Char) ∉ l) :
    ('\n' : Char) ∉ stripTrailingZeros l := by
  rw [stripTrailingZeros]
  intro hm
  rw [List.mem_reverse] at hm
  exact h (List.mem_reverse.1 ((List.dropWhile_sublist _).subset hm))

theorem countNL_sciNotation (sign : String) (digs : List Char) (exp : Nat)
    (hs : countNL sign = 0) (hd : ('\n' : Char) ∉ digs) :
    countNL (sciNotation sign digs exp) = 0 := by
  have hp : countNL ⟨padNat 2 exp⟩ = 0 := count_padNat 2 exp
  cases digs with
  | nil =>
    rw [sciNotation, countNL_append, countNL_append, hs, hp]
    decide
  | cons d rest =>
    simp only [List.mem_cons, not_or] at hd
    have hd1 : countNL ⟨[d]⟩ = 0 := List.count_eq_zero.2 (by simpa using hd.1)
    have hd2 : countNL ⟨rest⟩ = 0 := List.count_eq_zero.2 hd.2
    rw [sciNotation]
    split
    · rw [countNL_append, countNL_append, countNL_append, hs, hd1, hp]
      decide
    · rw [countNL_append, countNL_append, countNL_append, countNL_append, countNL_append,
        hs, hd1, hd2, hp]
      decide

theorem countNL_goFmtFloat (n : Int) : countNL (goFmtFloat n) = 0 := by
  have hsign : countNL (if n < 0 then "-" else "") = 0 := by split <;> decide
  have hds : countNL ⟨natDigits n.natAbs⟩ = 0 := count_natDigits _
  simp only [goFmtFloat]
  split
  · decide
  · split
    · rw [countNL_append, hsign, hds]
    · exact countNL_sciNotation _ _ _ hsign
        (nl_not_mem_stripTrailingZeros (List.count_eq_zero.1 (count_natDigits _)))

theorem countNL_goJSONNum (n : Int) : countNL (goJSONNum n) = 0 := by
  simp only [goJSONNum]
  split
  · exact countNL_intDecimal n
  · exact countNL_sciNotation _ _ _ (by split <;> decide)
      (nl_not_mem_stripTrailingZeros (List.count_eq_zero.1 (count_natDigits _)))

theorem nl_not_mem_jsonEscapeChar (c : Char) : ('\n' : Char) ∉ jsonEscapeChar c := by
  unfold jsonEscapeChar
  split_ifs with h1 h2 h3 h4 h5 h6 h7 h8 h9 h10 h11
  · decide
  · decide
  · decide
  · decide
  · decide
  · decide
  · decide
  · decide
  · simp only [List.mem_cons, List.not_mem_nil, or_false]
    push_neg
    refine ⟨by decide, by decide, by decide, by decide, ?_, ?_⟩
    · exact fun he => hexDigit_ne_nl _ he.symm
    · exact fun he => hexDigit_ne_nl _ he.symm
  · decide
  · decide
  · simp only [List.mem_singleton]
    exact fun he => h3 he.symm

theorem nl_not_mem_flatMap_jsonEscapeChar :
    ∀ l : List Char, ('\n' : Char) ∉ l.flatMap jsonEscapeChar
  | [] => by simp
  | c :: t => by
    rw [List.flatMap_cons]
    simp only [List.mem_append, not_or]
    exact ⟨nl_not_mem_jsonEscapeChar c, nl_not_mem_flatMap_jsonEscapeChar t⟩

theorem countNL_jsonEscape (s : String) : countNL (jsonEscape s) = 0 := by
  simp only [jsonEscape]
  rw [countNL_mk]
  exact List.count_eq_zero.2 (nl_not_mem_flatMap_jsonEscapeChar s.data)

theorem countNL_joinStr (sep : String) (hsep : countNL sep = 0) :
    ∀ l : List String, (∀ x ∈ l, countNL x = 0) → countNL (joinStr sep l) = 0
  | [], _ => rfl
  | [x], h => by
    rw [joinStr]
    exact h x (List.mem_singleton_self x)
  | x :: y :: xs, h => by
    rw [joinStr, countNL_append, countNL_append, hsep,
      countNL_joinStr sep hsep (y :: xs) (fun z hz => h z (List.mem_cons_of_mem _ hz)),
      h x (List.mem_cons_self _ _)]

mutual

/-- The compact JSON encoding of any claim value contains no line feed:
`encoding/json` escapes every control character inside string literals and
the structural syntax of `json.Marshal` output is single-line. -/
theorem countNL_jsonCompact : ∀ v : JSONValue, countNL (jsonCompact v) = 0
  | .null => by decide
  | .bool b => by cases b <;> decide
  | .num n => by
    rw [jsonCompact]
    exact countNL_goJSONNum n
  | .str s => by
    rw [jsonCompact, countNL_append, countNL_append, countNL_jsonEscape]
    decide
  | .arr items => by
    rw [jsonCompact, countNL_append, countNL_append,
      countNL_joinStr "," (by decide) _ (fun s hs => countNL_jsonCompactList items s hs)]
    decide
  | .obj fields => by
    simp only [jsonCompact]
    have h : ∀ x ∈ (List.insertionSort (fun a b => strLeb a.1 b.1 = true)
        (jsonCompactFields fields)).map
        (fun kv => "\"" ++ jsonEscape kv.1 ++ "\":" ++ kv.2), countNL x = 0 := by
      intro x hx
      rcases List.mem_map.1 hx with ⟨p, hp, rfl⟩
      have hp2 : p ∈ jsonCompactFields fields :=
        (List.perm_insertionSort _ _).mem_iff.1 hp
      rw [countNL_append, countNL_append, countNL_append, countNL_jsonEscape,
        countNL_jsonCompactFields fields p hp2]
      decide
    rw [countNL_append, countNL_append, countNL_joinStr "," (by decide) _ h]
    decide

/-- Partner of `countNL_jsonCompact` on element lists. -/
theorem countNL_jsonCompactList :
    ∀ (l : List JSONValue) (s : String), s ∈ jsonCompactList l → countNL s = 0
  | [], s, hs => by simp [jsonCompactList] at hs
  | v :: t, s, hs => by
    rw [jsonCompactList] at hs
    rcases List.mem_cons.1 hs with rfl | h
    · exact countNL_jsonCompact v
    · exact countNL_jsonCompactList t s h

/-- Partner of `countNL_jsonCompact` on field lists (rendered values). -/
theorem countNL_jsonCompactFields :
    ∀ (l : List (String × JSONValue)) (p : String × String),
      p ∈ jsonCompactFields l → countNL p.2 = 0
  | [], p, hp => by simp [jsonCompactFields] at hp
  | (k, v) :: t, p, hp => by
    rw [jsonCompactFields] at hp
    rcases List.mem_cons.1 hp with rfl | h
    · exact countNL_jsonCompact v
    · exact countNL_jsonCompactFields t p h

end

theorem countNL_pad2 (n : Nat) : countNL (pad2 n) = 0 := count_padNat 2 n

theorem countNL_padYear (y : Int) : countNL (padYear y) = 0 := by
  simp only [padYear]
  rw [countNL_append]
  have h1 : countNL (if y < 0 then "-" else "") = 0 := by split <;> decide
  have h2 : countNL ⟨padNat 4 y.natAbs⟩ = 0 := count_padNat 4 _
  omega

theorem countNL_formatDatestamp (nanos : Int) : countNL (formatDatestamp nanos) = 0 := by
  simp only [formatDatestamp, countNL_append, countNL_padYear, countNL_pad2]
  decide

theorem count_flatMap_csvQuote :
    ∀ l : List Char,
      (l.flatMap fun c => if c = '"' then ['"', '"'] else [c]).count '\n' = l.count '\n'
  | [] => rfl
  | c :: t => by
    rw [List.flatMap_cons, List.count_append, count_flatMap_csvQuote t]
    by_cases h : c = '"'
    · subst h
      simp [List.count_cons]
    · rw [if_neg h]
      by_cases hc : c = '\n' <;> simp [List.count_cons, hc] <;> omega

theorem countNL_csvQuoteBody (f : String) : countNL (csvQuoteBody f) = countNL f := by
  simp only [csvQuoteBody, countNL]
  exact count_flatMap_csvQuote f.data

theorem countNL_encodeCSVField (f : String) : countNL (encodeCSVField f) = countNL f := by
  simp only [encodeCSVField]
  split
  · have h : countNL "\"" = 0 := by decide
    rw [countNL_append, countNL_append, countNL_csvQuoteBody, h]
    omega
  · rfl

theorem countNL_escapeCSVValue (v : String) : countNL (escapeCSVValue v) = countNL v := by
  unfold escapeCSVValue
  split
  · rfl
  · split
    · have h : countNL "'" = 0 := by decide
      rw [countNL_append, h]
      omega
    · rfl

theorem countNL_csvWriteRecord (fields : List String)
    (h : ∀ f ∈ fields, countNL f = 0) : countNL (csvWriteRecord fields) = 1 := by
  have hm : ∀ x ∈ fields.map encodeCSVField, countNL x = 0 := by
    intro x hx
    rcases List.mem_map.1 hx with ⟨f, hf, rfl⟩
    rw [countNL_encodeCSVField]
    exact h f hf
  simp only [csvWriteRecord]
  rw [countNL_append, countNL_joinStr "," (by decide) _ hm]
  decide

/-- Value shapes produced by one `flattenStep`: besides the accumulator, a
cell value is either the flattened original value or a datestamp string. -/
theorem mem_flattenStep_val {c : Bool} {u : String} {acc : ClaimSet} {kv : String × JSONValue}
    {p : String × JSONValue} (h : p ∈ P2.flattenStep "" c u acc kv) :
    p ∈ acc ∨ p.2 = flatVal kv.2 ∨
      ∃ d, P2.convertEpochToHumanReadable kv.1 kv.2 u = some d ∧ p.2 = JSONValue.str d := by
  rw [flattenStep_empty_pre] at h
  rcases hc : P2.convertEpochToHumanReadable kv.1 kv.2 u with _ | d <;> cases c <;>
    simp only [hc, Bool.false_eq_true, if_false, if_true] at h
  · rcases mem_of_mem_insertKV h with h2 | h2
    · exact Or.inr (Or.inl (congrArg Prod.snd h2))
    · exact Or.inl h2
  · rcases mem_of_mem_insertKV h with h2 | h2
    · exact Or.inr (Or.inl (congrArg Prod.snd h2))
    · exact Or.inl h2
  · rcases mem_of_mem_insertKV h with h2 | h2
    · exact Or.inr (Or.inl (congrArg Prod.snd h2))
    · exact Or.inl h2
  · rcases mem_of_mem_insertKV h with h2 | h2
    · exact Or.inr (Or.inr ⟨d, rfl, congrArg Prod.snd h2⟩)
    · rcases mem_of_mem_insertKV h2 with h3 | h3
      · exact Or.inr (Or.inl (congrArg Prod.snd h3))
      · exact Or.inl h3

/-- Fold version of `mem_flattenStep_val`. -/
theorem mem_foldl_flattenStep_val {c : Bool} {u : String} :
    ∀ (l acc : ClaimSet) (p : String × JSONValue),
      p ∈ l.foldl (P2.flattenStep "" c u) acc →
      p ∈ acc ∨ ∃ kv ∈ l, p.2 = flatVal kv.2 ∨
        ∃ d, P2.convertEpochToHumanReadable kv.1 kv.2 u = some d ∧ p.2 = JSONValue.str d := by
  intro l
  induction l with
  | nil => intro acc p h; exact Or.inl h
  | cons kv l ih =>
    intro acc p h
    rw [List.foldl_cons] at h
    rcases ih _ p h with h2 | ⟨kv2, hkv2, h2⟩
    · rcases mem_flattenStep_val h2 with h3 | h3
      · exact Or.inl h3
      · exact Or.inr ⟨kv, List.mem_cons_self _ _, h3⟩
    · exact Or.inr ⟨kv2, List.mem_cons_of_mem _ hkv2, h2⟩

/-- Every entry of the flattened map carries either a flattened original
value or a synthetic datestamp string. -/
theorem mem_flattenClaims_val {claims : ClaimSet} {c : Bool} {u : String}
    {p : String × JSONValue} (h : p ∈ P2.flattenClaims claims "" c u) :
    ∃ kv ∈ claims, p.2 = flatVal kv.2 ∨
      ∃ d, P2.convertEpochToHumanReadable kv.1 kv.2 u = some d ∧ p.2 = JSONValue.str d := by
  rw [P2.flattenClaims] at h
  rcases mem_foldl_flattenStep_val claims [] p h with h2 | h2
  · simp at h2
  · exact h2

/-- A successful `P2.convertEpochToHumanReadable` always returns a rendered
datestamp string. -/
theorem P2.convertEpoch_eq_some {k : String} {v : JSONValue} {u d : String}
    (h : P2.convertEpochToHumanReadable k v u = some d) :
    ∃ t : Int, d = formatDatestamp (P2.convertEpochNanos t u) := by
  by_cases hk : isEpochKey k = true <;> cases v <;>
      simp [P2.convertEpochToHumanReadable, hk] at h
  exact ⟨_, h.symm⟩

/-- The `fmt %v` rendering of a flattened claim value contains no line feed,
provided a top-level string value is itself line-feed-free. -/
theorem countNL_goFmtV_flatVal {v : JSONValue} (hv : valNLFree v = true) :
    countNL (goFmtV (flatVal v)) = 0 := by
  cases v with
  | null => decide
  | bool b => cases b <;> decide
  | num n => exact countNL_goFmtFloat n
  | str s =>
    simp only [valNLFree, beq_iff_eq] at hv
    exact hv
  | arr items => exact countNL_jsonCompact (JSONValue.arr items)
  | obj fields => exact countNL_jsonCompact (JSONValue.obj fields)

/-- Header cells are line-feed-free when every claim key is. -/
theorem countNL_csvHeaders {claims : ClaimSet} {c : Bool} {u : String}
    (h : ∀ kv ∈ claims, countNL kv.1 = 0) :
    ∀ f ∈ P2.csvHeaders claims c u, countNL f = 0 := by
  intro f hf
  simp only [P2.csvHeaders, sortStrings] at hf
  have hf2 : f ∈ keysOf (P2.flattenClaims claims "" c u) :=
    (List.perm_insertionSort _ _).mem_iff.1 hf
  rcases mem_keysOf_flattenClaims.1 hf2 with ⟨kv, hkv, hcase⟩
  rcases hcase with rfl | ⟨rfl, _, _⟩
  · exact h kv hkv
  · rw [countNL_append, h kv hkv]
    decide

/-- Data-row cells are line-feed-free when every top-level string claim
value is. -/
theorem countNL_csvRow {claims : ClaimSet} {c : Bool} {u : String}
    (h : ∀ kv ∈ claims, valNLFree kv.2 = true) :
    ∀ f ∈ P2.csvRow claims c u, countNL f = 0 := by
  intro f hf
  simp only [P2.csvRow] at hf
  rcases List.mem_map.1 hf with ⟨hd, hhd, rfl⟩
  rw [countNL_escapeCSVValue]
  have hmem : hd ∈ keysOf (P2.flattenClaims claims "" c u) := by
    simp only [P2.csvHeaders, sortStrings] at hhd
    exact (List.perm_insertionSort _ _).mem_iff.1 hhd
  rcases lookupKV_isSome_of_mem_keysOf hmem with ⟨v, hv⟩
  rw [hv]
  simp only [Option.getD_some]
  rcases mem_flattenClaims_val (mem_of_lookupKV_eq_some hv) with ⟨kv, hkv, hcase | ⟨d, hcd, hcase⟩⟩
  · have hc2 : v = flatVal kv.2 := hcase
    rw [hc2]
    exact countNL_goFmtV_flatVal (h kv hkv)
  · have hc2 : v = JSONValue.str d := hcase
    rw [hc2]
    rcases P2.convertEpoch_eq_some hcd with ⟨t, rfl⟩
    exact countNL_formatDatestamp _

/-- Claim C4 (corrected): `FormatCSV` always writes exactly two CSV records,
and its byte output contains exactly two line feeds (one terminating each
record) — hence exactly two physical lines — provided no claim key and no
top-level string claim value contains a line feed.  (The unrestricted
two-line claim is refuted by `claim_C4_counterexample`: a line feed inside a
value is copied into the quoted cell.) -/
theorem claim_C4_amended (claims : ClaimSet) (c : Bool) (u : String)
    (h : ∀ kv ∈ claims, countNL kv.1 = 0 ∧ valNLFree kv.2 = true) :
    countNL (P2.FormatCSV claims c u) = 2 := by
  have h1 : ∀ kv ∈ claims, countNL kv.1 = 0 := fun kv hkv => (h kv hkv).1
  have h2 : ∀ kv ∈ claims, valNLFree kv.2 = true := fun kv hkv => (h kv hkv).2
  simp only [P2.FormatCSV]
  rw [countNL_append, countNL_csvWriteRecord _ (countNL_csvHeaders h1),
    countNL_csvWriteRecord _ (countNL_csvRow h2)]

/-- Witness for the corrected C4 at a concrete claim set with conversion on. -/
theorem claim_C4_witness :
    countNL (P2.FormatCSV [("iat", JSONValue.num 1700000000)] true "s") = 2 :=
  claim_C4_amended _ true "s" (by
    intro kv hkv
    rcases List.mem_singleton.1 hkv with rfl
    exact ⟨by decide, by decide⟩)
